import Mathlib

/-!
Shallow embedding of the KeyWrite backend (`src/backend/main.py`): the
key-term store with its JSONL persistence, the regex-based whole-word
matcher, and the extraction-merge phase of the `/chat` handler, together
with theorems settling the specification's claims about them.

Modelling conventions, stated once:

* Python strings are Lean `String` / `List Char`.  Case folding and the
  regex classes `\w`, `\b`, `\s`, as well as `str.strip`, are modelled on
  their ASCII meaning (the repository's data is ASCII; the unicode tables
  are out of scope of the embedding).
* `json.loads` is modelled by `parseJson`, a fuel-based recursive-descent
  parser mirroring the stdlib scanner: strict strings (unescaped control
  characters rejected), `NaN`/`Infinity`/`-Infinity` constants accepted,
  number tokens kept as their literal text, later duplicate object keys
  overwriting earlier ones in place (dict semantics).  `json.dumps` is
  modelled by `render` with the default `", "` / `": "` separators.
* A file is modelled as the list of its lines; `save_key_terms` emits one
  rendered record per line and `load_key_terms` consumes lines in order.
* Python exceptions are explicit: an uncaught exception in the embedded
  fragment is a dedicated error value, never a Lean panic.
-/

namespace KeyWrite

/-! ### Character classes (ASCII model of `\s`, `\w`, casefolding, strip) -/

/-- ASCII whitespace as Python's `str.strip` and the regex class `\s` see it. -/
def isPySpace (c : Char) : Bool :=
  c.toNat = 32 || c.toNat = 9 || c.toNat = 10 || c.toNat = 13 || c.toNat = 11 || c.toNat = 12

/-- JSON inter-token whitespace (`json.decoder.WHITESPACE`): space, tab, LF, CR. -/
def isJsonWs (c : Char) : Bool :=
  c.toNat = 32 || c.toNat = 9 || c.toNat = 10 || c.toNat = 13

/-- Decimal digit. -/
def isDigitC (c : Char) : Bool := 48 ≤ c.toNat && c.toNat ≤ 57

/-- The regex class `\w` (ASCII): letters, digits, underscore. -/
def isWordCharB (c : Char) : Bool :=
  (65 ≤ c.toNat && c.toNat ≤ 90) || (97 ≤ c.toNat && c.toNat ≤ 122) ||
  (48 ≤ c.toNat && c.toNat ≤ 57) || c.toNat = 95

/-- ASCII lower-casing on code points, for case-insensitive comparison. -/
def lowerCode (n : Nat) : Nat := if 65 ≤ n ∧ n ≤ 90 then n + 32 else n

/-- Case-insensitive character equality (`re.IGNORECASE`, ASCII model). -/
def ciEq (a b : Char) : Bool := lowerCode a.toNat = lowerCode b.toNat

/-- Remove trailing characters satisfying `p`. -/
def dropTrailing (p : Char → Bool) (l : List Char) : List Char :=
  (l.reverse.dropWhile p).reverse

/-- Python `str.strip()` on a character list (ASCII whitespace model). -/
def pyStripL (l : List Char) : List Char :=
  dropTrailing isPySpace (l.dropWhile isPySpace)

/-- Python `str.strip()`. -/
def pyStrip (s : String) : String := String.mk (pyStripL s.toList)

/-! ### Ordered association lists with Python-dict semantics -/

/-- Dict lookup: the value at the first (hence unique) occurrence of `key`. -/
def mget : List (String × α) → String → Option α
  | [], _ => none
  | (k, v) :: t, key => if k = key then some v else mget t key

/-- Replace the value stored at `key`, keeping its position (no-op if absent). -/
def msetHere : List (String × α) → String → α → List (String × α)
  | [], _, _ => []
  | (k, v) :: t, key, nv => if k = key then (k, nv) :: t else (k, v) :: msetHere t key nv

/-- Python `d[key] = v`: overwrite in place if present, else append. -/
def mset (m : List (String × α)) (key : String) (v : α) : List (String × α) :=
  if (mget m key).isSome then msetHere m key v else m ++ [(key, v)]

/-- Python `del d[key]` (the key is assumed present at most once). -/
def mdel : List (String × α) → String → List (String × α)
  | [], _ => []
  | (k, v) :: t, key => if k = key then t else (k, v) :: mdel t key

/-- The key list, in insertion order. -/
def mkeys (m : List (String × α)) : List String := m.map Prod.fst

/-! ### JSON values

Number tokens are kept as their literal source text (`json.loads` would
build a float/int from them; none of the verified properties depend on
numeric value, only on token shape and truthiness). -/

inductive Json where
  | null
  | bool (b : Bool)
  | num (lit : String)
  | str (s : String)
  | arr (items : List Json)
  | obj (members : List (String × Json))

mutual

/-- Structural equality test (the nested inductive blocks deriving). -/
def jeq : Json → Json → Bool
  | .null, .null => true
  | .bool a, .bool b => a == b
  | .num a, .num b => a == b
  | .str a, .str b => a == b
  | .arr xs, .arr ys => jeqItems xs ys
  | .obj xs, .obj ys => jeqMembers xs ys
  | _, _ => false

/-- Pointwise equality of item lists. -/
def jeqItems : List Json → List Json → Bool
  | [], [] => true
  | x :: xs, y :: ys => jeq x y && jeqItems xs ys
  | _, _ => false

/-- Pointwise equality of member lists. -/
def jeqMembers : List (String × Json) → List (String × Json) → Bool
  | [], [] => true
  | (k, v) :: xs, (k2, v2) :: ys => k == k2 && jeq v v2 && jeqMembers xs ys
  | _, _ => false

end

mutual

theorem jeq_iff : ∀ a b, jeq a b = true ↔ a = b
  | .null, b => by cases b <;> simp [jeq]
  | .bool a, b => by cases b <;> simp [jeq]
  | .num a, b => by cases b <;> simp [jeq]
  | .str a, b => by cases b <;> simp [jeq]
  | .arr xs, b => by
    cases b
    case arr ys => simpa [jeq] using jeqItems_iff xs ys
    all_goals simp [jeq]
  | .obj xs, b => by
    cases b
    case obj ys => simpa [jeq] using jeqMembers_iff xs ys
    all_goals simp [jeq]

theorem jeqItems_iff : ∀ xs ys, jeqItems xs ys = true ↔ xs = ys
  | [], ys => by cases ys <;> simp [jeqItems]
  | x :: xs, [] => by simp [jeqItems]
  | x :: xs, y :: ys => by
    simp [jeqItems, jeq_iff x y, jeqItems_iff xs ys]

theorem jeqMembers_iff : ∀ xs ys, jeqMembers xs ys = true ↔ xs = ys
  | [], ys => by cases ys <;> simp [jeqMembers]
  | (k, v) :: xs, [] => by simp [jeqMembers]
  | (k, v) :: xs, (k2, v2) :: ys => by
    simp [jeqMembers, jeq_iff v v2, jeqMembers_iff xs ys, and_assoc]

end

instance : DecidableEq Json := fun a b => decidable_of_iff (jeq a b = true) (jeq_iff a b)

/-- Duplicate-key collapse: `dict(pairs)`, later values winning in place. -/
def dictOf (pairs : List (String × Json)) : List (String × Json) :=
  pairs.foldl (fun m kv => mset m kv.1 kv.2) []

/-! ### The `json.loads` model -/

/-- Drop JSON whitespace. -/
def skipWs (l : List Char) : List Char := l.dropWhile isJsonWs

/-- Longest leading run of decimal digits, and the remainder. -/
def spanDigits : List Char → List Char × List Char
  | [] => ([], [])
  | c :: t =>
    if isDigitC c then
      let (d, r) := spanDigits t
      (c :: d, r)
    else ([], c :: t)

/-- Integer part of a JSON number: `0`, or a nonzero digit then digits. -/
def intPart : List Char → Option (List Char × List Char)
  | [] => none
  | c :: t =>
    if c = '0' then some (['0'], t)
    else if isDigitC c then
      let (d, r) := spanDigits t
      some (c :: d, r)
    else none

/-- Optional fraction `.digits`; consumed only when fully present. -/
def fracPart : List Char → List Char × List Char
  | [] => ([], [])
  | c :: t =>
    if c = '.' then
      let (d, r) := spanDigits t
      if d = [] then ([], c :: t) else (c :: d, r)
    else ([], c :: t)

/-- Optional exponent `[eE][+-]?digits`; consumed only when fully present. -/
def expPart : List Char → List Char × List Char
  | [] => ([], [])
  | c :: t =>
    if c = 'e' || c = 'E' then
      let sgn : List Char :=
        match t.head? with
        | some s => if s = '+' || s = '-' then [s] else []
        | none => []
      let (d, r) := spanDigits (t.drop sgn.length)
      if d = [] then ([], c :: t) else (c :: (sgn ++ d), r)
    else ([], c :: t)

/-- Sign-free number token: integer part, then optional fraction/exponent. -/
def numCore (m : List Char) : Option (List Char × List Char) :=
  match intPart m with
  | none => none
  | some (ip, r1) =>
    let (fp, r2) := fracPart r1
    let (ep, r3) := expPart r2
    some (ip ++ fp ++ ep, r3)

/-- A JSON number token (maximal munch of the stdlib `NUMBER_RE` grammar),
    returned as the consumed characters. -/
def parseNum : List Char → Option (List Char × List Char)
  | [] => none
  | c :: t =>
    if c = '-' then (numCore t).map (fun p => ('-' :: p.1, p.2))
    else numCore (c :: t)

/-- Value of a hex digit. -/
def hexVal (c : Char) : Option Nat :=
  if 48 ≤ c.toNat ∧ c.toNat ≤ 57 then some (c.toNat - 48)
  else if 97 ≤ c.toNat ∧ c.toNat ≤ 102 then some (c.toNat - 87)
  else if 65 ≤ c.toNat ∧ c.toNat ≤ 70 then some (c.toNat - 55)
  else none

/-- Four hex digits as a code unit. -/
def hex4 (a b c d : Char) : Option Nat :=
  match hexVal a, hexVal b, hexVal c, hexVal d with
  | some va, some vb, some vc, some vd => some (va * 4096 + vb * 256 + vc * 16 + vd)
  | _, _, _, _ => none

/-- Short escapes of the JSON string grammar. -/
def unescapeC : Char → Option Char
  | '"' => some '"'
  | '\\' => some '\\'
  | '/' => some '/'
  | 'b' => some (Char.ofNat 8)
  | 'f' => some (Char.ofNat 12)
  | 'n' => some '\n'
  | 'r' => some '\r'
  | 't' => some '\t'
  | _ => none

/-- String body after the opening quote, strict mode: raw characters must be
    at least `0x20`; bad escapes and unterminated strings fail. -/
def parseStrBody : List Char → Option (List Char × List Char)
  | [] => none
  | c :: t =>
    if c = '"' then some ([], t)
    else if c = '\\' then
      match t with
      | [] => none
      | e :: r =>
        if e = 'u' then
          match r with
          | a :: b :: c2 :: d :: r2 =>
            (match hex4 a b c2 d with
             | some n => (parseStrBody r2).map (fun p => (Char.ofNat n :: p.1, p.2))
             | none => none)
          | _ => none
        else
          (match unescapeC e with
           | some ch => (parseStrBody r).map (fun p => (ch :: p.1, p.2))
           | none => none)
    else if 32 ≤ c.toNat then (parseStrBody t).map (fun p => (c :: p.1, p.2))
    else none

mutual

/-- After a literal keyword's first character: the rest must follow exactly. -/
def takeLit (w : List Char) (l : List Char) : Option (List Char) :=
  if l.take w.length = w then some (l.drop w.length) else none

/-- One JSON value at the head of the input (no leading whitespace). -/
def parseVal : Nat → List Char → Option (Json × List Char)
  | 0, _ => none
  | _ + 1, [] => none
  | fuel + 1, c :: t =>
    if c = '"' then
      match parseStrBody t with
      | some (cs, r) => some (.str (String.mk cs), r)
      | none => none
    else if c = '{' then
      match skipWs t with
      | [] => none
      | c2 :: t2 =>
        if c2 = '}' then some (.obj [], t2)
        else
          match parseMemberSeq fuel (c2 :: t2) with
          | some (ms, r) => some (.obj (dictOf ms), r)
          | none => none
    else if c = '[' then
      match skipWs t with
      | [] => none
      | c2 :: t2 =>
        if c2 = ']' then some (.arr [], t2)
        else
          match parseItemSeq fuel (c2 :: t2) with
          | some (items, r) => some (.arr items, r)
          | none => none
    else if c = 'n' then
      match takeLit ['u', 'l', 'l'] t with
      | some r => some (.null, r)
      | none => none
    else if c = 't' then
      match takeLit ['r', 'u', 'e'] t with
      | some r => some (.bool true, r)
      | none => none
    else if c = 'f' then
      match takeLit ['a', 'l', 's', 'e'] t with
      | some r => some (.bool false, r)
      | none => none
    else if c = 'N' then
      match takeLit ['a', 'N'] t with
      | some r => some (.num "NaN", r)
      | none => none
    else if c = 'I' then
      match takeLit ['n', 'f', 'i', 'n', 'i', 't', 'y'] t with
      | some r => some (.num "Infinity", r)
      | none => none
    else
      match parseNum (c :: t) with
      | some (cs, r) => some (.num (String.mk cs), r)
      | none =>
        if c = '-' then
          match takeLit ['I', 'n', 'f', 'i', 'n', 'i', 't', 'y'] t with
          | some r => some (.num "-Infinity", r)
          | none => none
        else none

/-- One or more `"key": value` members followed by `}` (trailing commas fail). -/
def parseMemberSeq : Nat → List Char → Option (List (String × Json) × List Char)
  | 0, _ => none
  | _ + 1, [] => none
  | fuel + 1, c :: t =>
    if c = '"' then
      match parseStrBody t with
      | some (kcs, r1) =>
        (match skipWs r1 with
         | [] => none
         | c2 :: r2 =>
           if c2 = ':' then
             match parseVal fuel (skipWs r2) with
             | some (v, r3) =>
               (match skipWs r3 with
                | [] => none
                | c3 :: r4 =>
                  if c3 = ',' then
                    match parseMemberSeq fuel (skipWs r4) with
                    | some (ms, r5) => some ((String.mk kcs, v) :: ms, r5)
                    | none => none
                  else if c3 = '}' then some ([(String.mk kcs, v)], r4)
                  else none)
             | none => none
           else none)
      | none => none
    else none

/-- One or more array items followed by `]` (trailing commas fail). -/
def parseItemSeq : Nat → List Char → Option (List Json × List Char)
  | 0, _ => none
  | fuel + 1, l =>
    match parseVal fuel l with
    | some (v, r1) =>
      (match skipWs r1 with
       | [] => none
       | c2 :: r2 =>
         if c2 = ',' then
           match parseItemSeq fuel (skipWs r2) with
           | some (items, r3) => some (v :: items, r3)
           | none => none
         else if c2 = ']' then some ([v], r2)
         else none)
    | none => none

end

/-- `json.loads`: leading and trailing whitespace allowed, nothing else. -/
def parseJson (s : String) : Option Json :=
  match parseVal (s.toList.length + 1) (skipWs s.toList) with
  | some (j, r) => if skipWs r = [] then some j else none
  | none => none

/-! ### The `json.dumps` model (default separators, raw non-ASCII) -/

/-- Lower-case hex digit. -/
def hexDigit (n : Nat) : Char :=
  if n < 10 then Char.ofNat (48 + n) else Char.ofNat (87 + n)

/-- One character of string content, escaped as `json.dumps` escapes it. -/
def escC (c : Char) : List Char :=
  if c = '"' then ['\\', '"']
  else if c = '\\' then ['\\', '\\']
  else if c = '\n' then ['\\', 'n']
  else if c = '\r' then ['\\', 'r']
  else if c = '\t' then ['\\', 't']
  else if c.toNat < 32 then
    if c.toNat = 8 then ['\\', 'b']
    else if c.toNat = 12 then ['\\', 'f']
    else ['\\', 'u', '0', '0', hexDigit (c.toNat / 16), hexDigit (c.toNat % 16)]
  else [c]

/-- A rendered string literal. -/
def renderStrL (s : String) : List Char :=
  '"' :: (s.toList.flatMap escC ++ ['"'])

mutual

/-- Rendered characters of a value. -/
def renderL : Json → List Char
  | .null => ['n', 'u', 'l', 'l']
  | .num lit => lit.toList
  | .bool true => ['t', 'r', 'u', 'e']
  | .str s => renderStrL s
  | .bool false => ['f', 'a', 'l', 's', 'e']
  | .arr items => '[' :: (renderItemsL items ++ [']'])
  | .obj ms => '{' :: (renderMembersL ms ++ ['}'])

/-- Array items joined by `", "`. -/
def renderItemsL : List Json → List Char
  | [] => []
  | j :: rest => renderL j ++ renderISep rest

/-- Separator-led tail of an item list. -/
def renderISep : List Json → List Char
  | [] => []
  | j :: rest => ',' :: ' ' :: (renderL j ++ renderISep rest)

/-- Object members `"key": value` joined by `", "`. -/
def renderMembersL : List (String × Json) → List Char
  | [] => []
  | (k, v) :: rest => renderStrL k ++ ':' :: ' ' :: (renderL v ++ renderMSep rest)

/-- Separator-led tail of a member list. -/
def renderMSep : List (String × Json) → List Char
  | [] => []
  | (k, v) :: rest =>
    ',' :: ' ' :: (renderStrL k ++ ':' :: ' ' :: (renderL v ++ renderMSep rest))

end

/-- `json.dumps` with its default separators. -/
def render (j : Json) : String := String.mk (renderL j)

/-! ### Well-formed values: those `render` serializes to valid JSON text -/

mutual

/-- Number literals match the grammar; object keys are distinct (a rendered
    Python dict can never repeat a key). -/
def jwf : Json → Bool
  | .null => true
  | .bool _ => true
  | .num lit => parseNum lit.toList = some (lit.toList, [])
  | .str _ => true
  | .arr items => jwfItems items
  | .obj ms => jwfMembers ms && (ms.map Prod.fst).Nodup

/-- All items well-formed. -/
def jwfItems : List Json → Bool
  | [] => true
  | j :: rest => jwf j && jwfItems rest

/-- All member values well-formed. -/
def jwfMembers : List (String × Json) → Bool
  | [] => true
  | (_, v) :: rest => jwf v && jwfMembers rest

end

/-! ### Markdown fence stripping

`re.sub(r'^```json\s*', '', t, flags=re.MULTILINE)` followed by
`re.sub(r'```\s*$', '', t, flags=re.MULTILINE)` and `str.strip()`.
Matches are found left to right on the original text, non-overlapping;
`^`/`$` anchor at line boundaries; `\s*` is greedy with backtracking. -/

/-- The backtick character (kept out of the source text by policy). -/
def tickC : Char := Char.ofNat 96

/-- The opening-fence literal of the first substitution. -/
def fenceJ : List Char := [tickC, tickC, tickC, 'j', 's', 'o', 'n']

/-- The closing-fence literal of the second substitution. -/
def ticks3 : List Char := [tickC, tickC, tickC]

theorem len_dropWhileLe (p : Char → Bool) (l : List Char) :
    (l.dropWhile p).length ≤ l.length := by
  induction l with
  | nil => simp [List.dropWhile]
  | cons c cs ih =>
    by_cases h : p c <;> simp [List.dropWhile, h] <;> omega

/-- First substitution: delete every line-start `fenceJ` plus the greedy
    whitespace run after it.  `atLS` records whether the current original
    position is a line start (position 0 or preceded by a newline). -/
def sub1Aux : Bool → List Char → List Char
  | _, [] => []
  | atLS, c :: cs =>
    if h : atLS ∧ (c :: cs).take 7 = fenceJ then
      let run := ((c :: cs).drop 7).takeWhile isPySpace
      sub1Aux (decide (run.getLast? = some '\n')) (((c :: cs).drop 7).dropWhile isPySpace)
    else c :: sub1Aux (decide (c = '\n')) cs
termination_by _ l => l.length
decreasing_by
  · refine lt_of_le_of_lt (len_dropWhileLe _ _) ?_
    simp only [List.length_drop, List.length_cons]
    omega
  · simp

/-- Does position `k` of `t` sit at a line end (end of text or before `\n`)? -/
def fenceOkAt (t : List Char) (k : Nat) : Bool :=
  t.drop k = [] || (t.drop k).head? = some '\n'

/-- Largest `k` at most the bound with `fenceOkAt` (the greedy `\s*` before `$`). -/
def bestKAux (t : List Char) : Nat → Option Nat
  | 0 => if fenceOkAt t 0 then some 0 else none
  | k + 1 => if fenceOkAt t (k + 1) then some (k + 1) else bestKAux t k

/-- Whitespace-run length the `\s*` of `` ```\s*$ `` may consume at this spot. -/
def bestK (t : List Char) : Option Nat := bestKAux t (t.takeWhile isPySpace).length

/-- Second substitution: delete every ``` ``` ``` plus a whitespace run ending
    at a line end. -/
def sub2Aux : List Char → List Char
  | [] => []
  | c :: cs =>
    if h : (c :: cs).take 3 = ticks3 ∧ (bestK ((c :: cs).drop 3)).isSome then
      sub2Aux (((c :: cs).drop 3).drop ((bestK ((c :: cs).drop 3)).getD 0))
    else c :: sub2Aux cs
termination_by l => l.length
decreasing_by
  · simp only [List.length_drop, List.length_cons]
    omega
  · simp

/-- The fence-stripping step of the `/chat` handler (both substitutions, then
    `str.strip()`). -/
def stripFences (s : String) : String :=
  String.mk (pyStripL (sub2Aux (sub1Aux true s.toList)))

/-! ### The regex fragment used by the matcher

`re.search(r'\b' + re.escape(key) + r'\b', message, re.IGNORECASE)`.
`re.escape` backslash-escapes everything but ASCII alphanumerics and `_`;
the compiled pattern is therefore a `\b` anchor, a literal character
sequence, and a closing `\b`.  The engine below interprets exactly that
token language. -/

inductive RTok where
  | bnd
  | lit (c : Char)
deriving DecidableEq

/-- `re.escape` (ASCII model): keep word characters, backslash the rest. -/
def pyEscape (l : List Char) : List Char :=
  l.flatMap (fun c => if isWordCharB c then [c] else ['\\', c])

/-- The raw pattern text built by `extract_key_terms_from_text`. -/
def rawPattern (key : List Char) : List Char :=
  '\\' :: 'b' :: (pyEscape key ++ ['\\', 'b'])

/-- Pattern compilation for the fragment: `\b` anchors, escaped literals, and
    bare word characters; anything else (never produced by `re.escape`) is
    unsupported and fails. -/
def parsePattern : List Char → Option (List RTok)
  | [] => some []
  | c :: rest =>
    if c = '\\' then
      match rest with
      | [] => none
      | c2 :: rest2 =>
        if c2 = 'b' then (parsePattern rest2).map (.bnd :: ·)
        else if isWordCharB c2 then none
        else (parsePattern rest2).map (.lit c2 :: ·)
    else if isWordCharB c then (parsePattern rest).map (.lit c :: ·)
    else none

/-- Word-character test seen through an optional character (text edge = no). -/
def isWordOpt : Option Char → Bool
  | none => false
  | some c => isWordCharB c

/-- The `\b` zero-width test between a previous and a next character. -/
def isBoundaryB (prev next : Option Char) : Bool := isWordOpt prev != isWordOpt next

/-- Match the token list at the current position; `prev` is the character just
    before it.  Literals compare case-insensitively (`re.IGNORECASE`). -/
def matchToks : Option Char → List RTok → List Char → Bool
  | prev, [], _ => true
  | prev, .bnd :: ts, rest => isBoundaryB prev rest.head? && matchToks prev ts rest
  | _, .lit _ :: _, [] => false
  | prev, .lit c :: ts, r :: rest => ciEq c r && matchToks (some r) ts rest

/-- Try the pattern at every position, left to right (`re.search`). -/
def searchFrom (toks : List RTok) : Option Char → List Char → Bool
  | prev, [] => matchToks prev toks []
  | prev, c :: r => matchToks prev toks (c :: r) || searchFrom toks (some c) r

/-- `re.search(pattern, msg)` as a Boolean. -/
def reSearch (toks : List RTok) (msg : List Char) : Bool := searchFrom toks none msg

/-- One key's test inside the matcher: compile the escaped pattern, search the
    message; `none` models a regex error (it never occurs, see C10). -/
def termMatches (key msg : String) : Option Bool :=
  (parsePattern (rawPattern key.toList)).map (fun toks => reSearch toks msg.toList)

/-! ### The term store and its operations -/

/-- A stored entry.  Values are JSON values: the HTTP endpoints always store
    strings, but `load_key_terms` copies whatever the file's records hold. -/
structure KTEntry where
  defn : Json
  rel : Json
deriving DecidableEq

/-- The in-memory store (`KEY_TERM_MAP`): insertion-ordered dict. -/
abbrev KMap := List (String × KTEntry)

/-- `extract_key_terms_from_text(message, key_map)`: the entries whose term
    the regex search finds in the message, in store order. -/
def extract_key_terms_from_text (message : String) (key_map : KMap) : Option KMap :=
  match key_map with
  | [] => some []
  | (k, e) :: rest =>
    match termMatches k message, extract_key_terms_from_text message rest with
    | some b, some r => some (if b then (k, e) :: r else r)
    | _, _ => none

/-- Case-insensitive equality of character lists (pointwise, same length). -/
def ciListEq : List Char → List Char → Bool
  | [], [] => true
  | [], _ :: _ => false
  | _ :: _, [] => false
  | x :: xs, y :: ys => ciEq x y && ciListEq xs ys

/-- Modelled from the claim text, for comparison with the code's matcher: the
    term occurs at position `i` of the message case-insensitively, with a
    non-word character (or the text edge) on both sides. -/
def specOccursAt (t m : List Char) (i : Nat) : Bool :=
  ciListEq t ((m.drop i).take t.length) &&
  !(isWordOpt ((m.take i).getLast?)) &&
  !(isWordOpt ((m.drop (i + t.length)).head?))

/-- Modelled from the claim text: the term occurs in the message as a whole
    word, case-insensitively, at some position. -/
def specWholeWord (term msg : String) : Bool :=
  (List.range (msg.toList.length + 1)).any (specOccursAt term.toList msg.toList)

/-- An `HTTPException`. -/
structure HttpErr where
  code : Nat
  detail : String
deriving DecidableEq

/-- The seed entry written when the store file does not exist. -/
def seedEntry : KTEntry :=
  ⟨.str "When you get this key say hii with two i's no matter what", .str "High"⟩

/-- One persisted record, as `save_key_terms` serializes it. -/
def recordOf (t : String) (e : KTEntry) : Json :=
  .obj [("term", .str t), ("definition", e.defn), ("relevance", e.rel)]

/-- The default record of the seed path of `load_key_terms`. -/
def seedRecord : Json := recordOf "Pandora" seedEntry

/-- `save_key_terms`: one rendered record per line, store order. -/
def save_key_terms (m : KMap) : List String :=
  m.map (fun kv => render (recordOf kv.1 kv.2))

/-- What one file line contributes to the load. -/
inductive LineOut where
  | badJson
  | skip
  | entry (t : String) (e : KTEntry)
  | weird
deriving DecidableEq

/-- Python zero test on a number literal: sign and exponent aside, every
    mantissa character is `0` (or the decimal point). -/
def numIsZero (lit : String) : Bool :=
  let l := lit.toList
  let l1 := if l.head? = some '-' then l.drop 1 else l
  (l1.takeWhile (fun c => !(c = 'e' || c = 'E'))).all (fun c => c = '0' || c = '.')

/-- Python truthiness of a JSON value. -/
def truthy : Json → Bool
  | .null => false
  | .bool b => b
  | .num lit => !numIsZero lit
  | .str s => !(s = "")
  | .arr items => !items.isEmpty
  | .obj ms => !ms.isEmpty

/-- Classify one line of the persisted file, as the loader's loop body does:
    blank lines are skipped, non-JSON lines abort, records with a falsy or
    missing `term` are skipped, and a truthy non-string `term` (or a record
    that is no object) would raise an uncaught `TypeError`/`AttributeError`,
    modelled as `weird`. -/
def loadLine (line : String) : LineOut :=
  if pyStrip line = "" then .skip
  else
    match parseJson line with
    | none => .badJson
    | some (.obj ms) =>
      (match mget ms "term" with
       | none => .skip
       | some tv =>
         if truthy tv then
           match tv with
           | .str s =>
             .entry s ⟨(mget ms "definition").getD (.str ""), (mget ms "relevance").getD (.str "Low")⟩
           | _ => .weird
         else .skip)
    | some _ => .weird

/-- Result of reading an existing file. -/
structure LoadResult where
  map : KMap
  decodeErr : Bool
  crashed : Bool
deriving DecidableEq

/-- The loader's loop: lines in order; a decode error aborts the loop (the
    entries read so far are kept and returned). -/
def loadLines : KMap → List String → LoadResult
  | acc, [] => ⟨acc, false, false⟩
  | acc, line :: rest =>
    match loadLine line with
    | .skip => loadLines acc rest
    | .entry t e => loadLines (mset acc t e) rest
    | .badJson => ⟨acc, true, false⟩
    | .weird => ⟨acc, false, true⟩

/-- Result of `load_key_terms`, including the file it leaves behind. -/
structure LoadOutcome where
  map : KMap
  file : List String
  decodeErr : Bool
  crashed : Bool
deriving DecidableEq

/-- `load_key_terms`: `none` models a missing file (seed it); `some lines`
    an existing one (read it, file unchanged). -/
def load_key_terms : Option (List String) → LoadOutcome
  | some lines =>
    let r := loadLines [] lines
    ⟨r.map, lines, r.decodeErr, r.crashed⟩
  | none => ⟨[("Pandora", seedEntry)], [render seedRecord], false, false⟩

/-- A request body for the key-term endpoints. -/
structure KeyTerm where
  term : String
  definition : Option String := none
  relevance : Option String := none

/-- Result of a mutating endpoint: the store afterwards, whether it was
    persisted, and the `HTTPException` raised, if any. -/
structure MutResult where
  map : KMap
  saved : Bool
  err : Option HttpErr
deriving DecidableEq

/-- `POST /key-terms` (`add_key_term`). -/
def add_key_term (m : KMap) (kt : KeyTerm) : MutResult :=
  let t := pyStrip kt.term
  if t = "" then ⟨m, false, some ⟨400, "Term cannot be empty."⟩⟩
  else if (mget m t).isSome then ⟨m, false, some ⟨400, "Key term already exists."⟩⟩
  else
    let d := match kt.definition with
      | some s => if s = "" then "" else pyStrip s
      | none => ""
    let r := match kt.relevance with
      | some s => if s = "" then "Low" else pyStrip s
      | none => "Low"
    ⟨mset m t ⟨.str d, .str r⟩, true, none⟩

/-- `PUT /key-terms/term` (`update_key_term`). -/
def update_key_term (m : KMap) (term : String) (kt : KeyTerm) : MutResult :=
  let t := pyStrip term
  match mget m t with
  | none => ⟨m, false, some ⟨404, "Key term not found."⟩⟩
  | some e =>
    let e1 := match kt.definition with
      | some d => { e with defn := .str (pyStrip d) }
      | none => e
    let e2 := match kt.relevance with
      | some r => { e1 with rel := .str (pyStrip r) }
      | none => e1
    ⟨msetHere m t e2, true, none⟩

/-- `DELETE /key-terms/term` (`delete_key_term`). -/
def delete_key_term (m : KMap) (term : String) : MutResult :=
  let t := pyStrip term
  if (mget m t).isSome then ⟨mdel m t, true, none⟩
  else ⟨m, false, some ⟨404, "Key term not found."⟩⟩

/-! ### The extraction-merge phase of `/chat` -/

/-- An uncaught Python exception inside the merge block (the inner `except`
    catches only `json.JSONDecodeError`). -/
inductive PyErr where
  | attrError
deriving DecidableEq

/-- Result of the extraction-parsing-and-merge block. -/
structure MergeOut where
  map : KMap
  saved : Bool
  err : Option PyErr
deriving DecidableEq

/-- String projection (`.strip()` on a non-string raises). -/
def asStr : Json → Option String
  | .str s => some s
  | _ => none

/-- The merge loop over `key_terms_data.items()`: each member's details must
    be an object with string `definition`/`relevance` (else the loop raises,
    keeping the insertions already made); trimmed, fresh, nonempty terms are
    inserted. -/
def mergeItems : KMap → Bool → List (String × Json) → KMap × Bool × Option PyErr
  | m, added, [] => (m, added, none)
  | m, added, (term, details) :: rest =>
    match details with
    | .obj dm =>
      (match asStr ((mget dm "definition").getD (.str "")) with
       | none => (m, added, some .attrError)
       | some d0 =>
         (match asStr ((mget dm "relevance").getD (.str "Low")) with
          | none => (m, added, some .attrError)
          | some r0 =>
            let tn := pyStrip term
            if tn ≠ "" ∧ (mget m tn).isNone then
              mergeItems (mset m tn ⟨.str (pyStrip d0), .str (pyStrip r0)⟩) true rest
            else mergeItems m added rest))
    | _ => (m, added, some .attrError)

/-- Lines 253-288 of the handler: strip fences, try `json.loads` (a decode
    failure is caught and swallowed), read `key_terms` (default empty dict),
    merge, and save once when something was added.  Any non-decode failure
    (`.get` or `.items()` or `.strip()` on the wrong shape) escapes as an
    uncaught exception. -/
def chatExtractionPhase (m : KMap) (text : String) : MergeOut :=
  match parseJson (stripFences text) with
  | none => ⟨m, false, none⟩
  | some (.obj top) =>
    (match (mget top "key_terms").getD (.obj []) with
     | .obj items =>
       (match mergeItems m false items with
        | (m2, added, some e) => ⟨m2, false, some e⟩
        | (m2, added, none) => ⟨m2, added, none⟩)
     | _ => ⟨m, false, some .attrError⟩)
  | some _ => ⟨m, false, some .attrError⟩

/-- What `/chat` sends back: the reply with status 200, or the generic 500
    (reply lost) when an exception escaped to the outer handler; `map` is the
    process-wide store afterwards. -/
structure ChatOut where
  reply : Option String
  status : Nat
  map : KMap
deriving DecidableEq

/-- The `/chat` request outcome from the extraction response on, given that
    the primary completion already produced `reply`. -/
def chat_outcome (m : KMap) (reply text : String) : ChatOut :=
  match chatExtractionPhase m text with
  | ⟨m2, _, some _⟩ => ⟨none, 500, m2⟩
  | ⟨m2, _, none⟩ => ⟨some reply, 200, m2⟩

/-- The store invariant of the data model: keys unique, trimmed, nonempty. -/
def storeInv (m : KMap) : Prop :=
  (mkeys m).Nodup ∧ ∀ k ∈ mkeys m, pyStrip k = k ∧ k ≠ ""

/-! ## Round-trip of the JSON codec

`parseJson (render j) = some j` for well-formed `j`: the backbone of the
persistence round-trip (C8) and of the fence-stripping scenario (C9). -/

/-- Stores the HTTP layer can build: unique keys, nonempty terms, well-formed
    entry values (string entries always qualify). -/
def goodStore (m : KMap) : Prop :=
  (mkeys m).Nodup ∧ ∀ kv ∈ m, kv.1 ≠ "" ∧ jwf kv.2.defn = true ∧ jwf kv.2.rel = true

/-- A remainder that cannot extend a number token to its right. -/
def numDelim : List Char → Bool
  | [] => true
  | c :: _ => !(isDigitC c || c = '.' || c = 'e' || c = 'E')

theorem spanDigits_nil : spanDigits [] = ([], []) := rfl

theorem spanDigits_cons_digit {c : Char} (t : List Char) (hc : isDigitC c = true) :
    spanDigits (c :: t) = (c :: (spanDigits t).1, (spanDigits t).2) := by
  cases hsp : spanDigits t with
  | mk d r => simp [spanDigits, hc, hsp]

theorem spanDigits_cons_nondigit {c : Char} (t : List Char) (hc : isDigitC c = false) :
    spanDigits (c :: t) = ([], c :: t) := by
  simp [spanDigits, hc]

theorem numDelim_not_digit {c : Char} {t : List Char} (h : numDelim (c :: t) = true) :
    isDigitC c = false := by
  simp only [numDelim, Bool.not_eq_true', Bool.or_eq_false_iff] at h
  exact h.1.1.1

theorem numDelim_parts {c : Char} {t : List Char} (h : numDelim (c :: t) = true) :
    isDigitC c = false ∧ c ≠ '.' ∧ c ≠ 'e' ∧ c ≠ 'E' := by
  simp only [numDelim, Bool.not_eq_true', Bool.or_eq_false_iff, decide_eq_false_iff_not] at h
  exact ⟨h.1.1.1, h.1.1.2, h.1.2, h.2⟩

theorem spanDigits_ext : ∀ (l rest : List Char),
    ((spanDigits l).2 = [] → numDelim rest = true) →
    spanDigits (l ++ rest) = ((spanDigits l).1, (spanDigits l).2 ++ rest)
  | [], rest, hr => by
    simp only [spanDigits_nil, List.nil_append]
    cases rest with
    | nil => exact spanDigits_nil
    | cons c t => rw [spanDigits_cons_nondigit t (numDelim_not_digit (hr rfl))]
  | c :: t, rest, hr => by
    by_cases hc : isDigitC c
    · rw [List.cons_append, spanDigits_cons_digit (t ++ rest) hc, spanDigits_cons_digit t hc,
        spanDigits_ext t rest (by simpa [spanDigits_cons_digit t hc] using hr)]
    · rw [spanDigits_cons_nondigit t (by simpa using hc), List.cons_append,
        spanDigits_cons_nondigit (t ++ rest) (by simpa using hc)]

theorem intPart_cons_zero (t : List Char) : intPart ('0' :: t) = some (['0'], t) := by
  simp [intPart]

theorem intPart_cons_digit {c : Char} (t : List Char) (hc : isDigitC c = true)
    (h0 : c ≠ '0') :
    intPart (c :: t) = some (c :: (spanDigits t).1, (spanDigits t).2) := by
  cases hsp : spanDigits t with
  | mk d r => simp [intPart, h0, hc, hsp]

theorem intPart_cons_nondigit {c : Char} (t : List Char) (hc : isDigitC c = false) :
    intPart (c :: t) = none := by
  have h0 : c ≠ '0' := by
    intro h
    subst h
    simp [isDigitC] at hc
  simp [intPart, h0, hc]

theorem intPart_ext {l rest : List Char} {ip r : List Char}
    (h : intPart l = some (ip, r)) (hr : r = [] → numDelim rest = true) :
    intPart (l ++ rest) = some (ip, r ++ rest) := by
  match l with
  | [] => simp [intPart] at h
  | c :: t =>
    by_cases h0 : c = '0'
    · subst h0
      rw [intPart_cons_zero] at h
      obtain ⟨rfl, rfl⟩ := Prod.mk.injEq .. ▸ Option.some.injEq .. ▸ h
      rw [List.cons_append, intPart_cons_zero]
    · by_cases hc : isDigitC c
      · rw [intPart_cons_digit t hc h0] at h
        obtain ⟨rfl, rfl⟩ := Prod.mk.injEq .. ▸ Option.some.injEq .. ▸ h
        rw [List.cons_append, intPart_cons_digit (t ++ rest) hc h0,
          spanDigits_ext t rest hr]
      · rw [intPart_cons_nondigit t (by simpa using hc)] at h
        cases h

theorem fracPart_ext {r1 rest : List Char} (hr : numDelim rest = true)
    (hok : (fracPart r1).1 ≠ [] ∨ r1 = [] ∨ r1.head? ≠ some '.') :
    fracPart (r1 ++ rest) = ((fracPart r1).1, (fracPart r1).2 ++ rest) := by
  match r1 with
  | [] =>
    simp only [fracPart, List.nil_append]
    cases rest with
    | nil => simp [fracPart]
    | cons c t =>
      obtain ⟨-, hdot, -, -⟩ := numDelim_parts hr
      simp [fracPart, hdot]
  | c :: t =>
    by_cases hdot : c = '.'
    · subst hdot
      cases hsp : spanDigits t with
      | mk d r =>
        cases d with
        | nil =>
          rcases hok with hok | hok | hok
          · simp [fracPart, hsp] at hok
          · cases hok
          · simp at hok
        | cons d0 ds =>
          have hspx : spanDigits (t ++ rest) = (d0 :: ds, r ++ rest) := by
            have := spanDigits_ext t rest (fun _ => hr)
            rw [hsp] at this
            exact this
          simp [fracPart, hsp, hspx]
    · simp [fracPart, hdot]

theorem expPart_ext {r2 rest : List Char} (hr : numDelim rest = true)
    (hok : (expPart r2).1 ≠ [] ∨ r2 = []) :
    expPart (r2 ++ rest) = ((expPart r2).1, (expPart r2).2 ++ rest) := by
  match r2 with
  | [] =>
    simp only [expPart, List.nil_append]
    cases rest with
    | nil => simp [expPart]
    | cons c t =>
      obtain ⟨-, -, he, hE⟩ := numDelim_parts hr
      simp [expPart, he, hE]
  | c :: t =>
    by_cases hce : c = 'e' ∨ c = 'E'
    · have hcegen : (c = 'e' || c = 'E') = true := by
        rcases hce with h | h <;> simp [h]
      match t with
      | [] =>
        rcases hok with hok | hok
        · simp [expPart, hcegen, spanDigits_nil] at hok
        · cases hok
      | s :: t2 =>
        by_cases hsgn : s = '+' ∨ s = '-'
        · have hsgngen : (s = '+' || s = '-') = true := by
            rcases hsgn with h | h <;> simp [h]
          cases hsp : spanDigits t2 with
          | mk d r =>
            cases d with
            | nil =>
              rcases hok with hok | hok
              · simp [expPart, hcegen, hsgngen, hsp] at hok
              · cases hok
            | cons d0 ds =>
              have hspx : spanDigits (t2 ++ rest) = (d0 :: ds, r ++ rest) := by
                have := spanDigits_ext t2 rest (fun _ => hr)
                rw [hsp] at this
                exact this
              simp [expPart, hcegen, hsgngen, hsp, hspx]
        · have hsgngen : (s = '+' || s = '-') = false := by
            simp only [Bool.or_eq_false_iff, decide_eq_false_iff_not]
            exact ⟨fun h => hsgn (Or.inl h), fun h => hsgn (Or.inr h)⟩
          cases hsp : spanDigits (s :: t2) with
          | mk d r =>
            cases d with
            | nil =>
              rcases hok with hok | hok
              · simp [expPart, hcegen, hsgngen, hsp] at hok
              · cases hok
            | cons d0 ds =>
              have hspx : spanDigits ((s :: t2) ++ rest) = (d0 :: ds, r ++ rest) := by
                have := spanDigits_ext (s :: t2) rest (fun _ => hr)
                rw [hsp] at this
                exact this
              simp [expPart, hcegen, hsgngen, hsp]
              simp only [List.cons_append] at hspx
              simp [hspx]
    · have hcegen : (c = 'e' || c = 'E') = false := by
        simp only [Bool.or_eq_false_iff, decide_eq_false_iff_not]
        exact ⟨fun h => hce (Or.inl h), fun h => hce (Or.inr h)⟩
      simp [expPart, hcegen]


theorem numCore_none {m : List Char} (hip : intPart m = none) : numCore m = none := by
  simp [numCore, hip]

theorem numCore_some {m ip r1 : List Char} (hip : intPart m = some (ip, r1)) :
    numCore m =
      some (ip ++ (fracPart r1).1 ++ (expPart (fracPart r1).2).1,
        (expPart (fracPart r1).2).2) := by
  cases hfp : fracPart r1 with
  | mk fp r2 =>
    cases hep : expPart r2 with
    | mk ep r3 => simp [numCore, hip, hfp, hep]

theorem fracPart_no_consume {m : List Char} (h : (fracPart m).1 = []) :
    (fracPart m).2 = m := by
  match m with
  | [] => rfl
  | c :: t =>
    by_cases hdot : c = '.'
    · subst hdot
      cases hsp : spanDigits t with
      | mk d r =>
        cases d with
        | nil => simp [fracPart, hsp]
        | cons d0 ds => simp [fracPart, hsp] at h
    · simp [fracPart, hdot]

theorem expPart_not_eE {c : Char} (t : List Char) (h : ¬(c = 'e' ∨ c = 'E')) :
    expPart (c :: t) = ([], c :: t) := by
  have hgen : (c = 'e' || c = 'E') = false := by
    simp only [Bool.or_eq_false_iff, decide_eq_false_iff_not]
    exact ⟨fun h2 => h (Or.inl h2), fun h2 => h (Or.inr h2)⟩
  simp [expPart, hgen]

theorem expPart_no_consume {m : List Char} (h : (expPart m).1 = []) :
    (expPart m).2 = m := by
  match m with
  | [] => rfl
  | c :: t =>
    by_cases hce : c = 'e' ∨ c = 'E'
    · have hcegen : (c = 'e' || c = 'E') = true := by
        rcases hce with h2 | h2 <;> simp [h2]
      match t with
      | [] => simp [expPart, hcegen, spanDigits_nil]
      | s :: t2 =>
        by_cases hsgn : s = '+' ∨ s = '-'
        · have hsgngen : (s = '+' || s = '-') = true := by
            rcases hsgn with h2 | h2 <;> simp [h2]
          cases hsp : spanDigits t2 with
          | mk d r =>
            cases d with
            | nil => simp [expPart, hcegen, hsgngen, hsp]
            | cons d0 ds => simp [expPart, hcegen, hsgngen, hsp] at h
        · have hsgngen : (s = '+' || s = '-') = false := by
            simp only [Bool.or_eq_false_iff, decide_eq_false_iff_not]
            exact ⟨fun h2 => hsgn (Or.inl h2), fun h2 => hsgn (Or.inr h2)⟩
          cases hsp : spanDigits (s :: t2) with
          | mk d r =>
            cases d with
            | nil => simp [expPart, hcegen, hsgngen, hsp]
            | cons d0 ds => simp [expPart, hcegen, hsgngen, hsp] at h
    · simp [expPart_not_eE t hce]

theorem numCore_ext {l rest : List Char} (h : numCore l = some (l, []))
    (hr : numDelim rest = true) :
    numCore (l ++ rest) = some (l, rest) := by
  cases hip : intPart l with
  | none => rw [numCore_none hip] at h; cases h
  | some p =>
    obtain ⟨ip, r1⟩ := p
    rw [numCore_some hip] at h
    simp only [Option.some.injEq, Prod.mk.injEq] at h
    obtain ⟨hcons, hr3⟩ := h
    have hepx : expPart ((fracPart r1).2 ++ rest) = ((expPart (fracPart r1).2).1, rest) := by
      have hok : (expPart (fracPart r1).2).1 ≠ [] ∨ (fracPart r1).2 = [] := by
        by_cases hepnil : (expPart (fracPart r1).2).1 = []
        · right
          have := expPart_no_consume hepnil
          rw [this] at hr3
          exact hr3
        · exact Or.inl hepnil
      have := @expPart_ext (fracPart r1).2 rest hr hok
      rw [hr3] at this
      simpa using this
    have hfpx : fracPart (r1 ++ rest) = ((fracPart r1).1, (fracPart r1).2 ++ rest) := by
      refine fracPart_ext hr ?_
      by_cases hfpnil : (fracPart r1).1 = []
      · right
        have hkeep := fracPart_no_consume hfpnil
        match r1 with
        | [] => exact Or.inl rfl
        | c :: t =>
          refine Or.inr ?_
          intro hc
          simp only [List.head?_cons, Option.some.injEq] at hc
          subst hc
          rw [hkeep] at hr3
          rw [expPart_not_eE t (by intro h2; rcases h2 with h2 | h2 <;> cases h2)] at hr3
          cases hr3
      · exact Or.inl hfpnil
    rw [numCore_some (intPart_ext hip (fun _ => hr)), hfpx]
    simp only [hepx]
    rw [hcons]

theorem parseNum_cons_neg (t : List Char) :
    parseNum ('-' :: t) = (numCore t).map (fun p => ('-' :: p.1, p.2)) := by
  simp [parseNum]

theorem parseNum_cons_other {c : Char} (t : List Char) (h : c ≠ '-') :
    parseNum (c :: t) = numCore (c :: t) := by
  simp [parseNum, h]

theorem parseNum_ext {l rest : List Char} (h : parseNum l = some (l, []))
    (hr : numDelim rest = true) :
    parseNum (l ++ rest) = some (l, rest) := by
  match l with
  | [] => simp [parseNum] at h
  | c :: t =>
    by_cases hneg : c = '-'
    · subst hneg
      rw [parseNum_cons_neg] at h
      cases hc : numCore t with
      | none => rw [hc] at h; cases h
      | some p =>
        rw [hc] at h
        simp only [Option.map_some', Option.some.injEq, Prod.mk.injEq] at h
        obtain ⟨h1, h2⟩ := h
        have hp1 : p.1 = t := (List.cons.injEq .. ▸ h1).2
        have hc2 : numCore t = some (t, []) := by
          rw [hc, ← hp1, ← h2]
        rw [List.cons_append, parseNum_cons_neg, numCore_ext hc2 hr]
        simp
    · rw [parseNum_cons_other t hneg] at h
      rw [List.cons_append, parseNum_cons_other (t ++ rest) hneg]
      have := @numCore_ext (c :: t) rest h hr
      rw [List.cons_append] at this
      exact this

theorem hexVal_hexDigit : ∀ d, d < 16 → hexVal (hexDigit d) = some d := by decide

theorem parseStrBody_escC (c : Char) (tail : List Char) :
    parseStrBody (escC c ++ tail) = (parseStrBody tail).map (fun p => (c :: p.1, p.2)) := by
  by_cases hq : c = '"'
  · subst hq
    rw [show escC '"' = ['\\', '"'] from by decide, List.cons_append, List.cons_append,
      List.nil_append, parseStrBody.eq_def]
    simp [unescapeC]
  by_cases hb : c = '\\'
  · subst hb
    rw [show escC '\\' = ['\\', '\\'] from by decide, List.cons_append, List.cons_append,
      List.nil_append, parseStrBody.eq_def]
    simp [unescapeC]
  by_cases hn : c = '\n'
  · subst hn
    rw [show escC '\n' = ['\\', 'n'] from by decide, List.cons_append, List.cons_append,
      List.nil_append, parseStrBody.eq_def]
    simp [unescapeC]
  by_cases hcr : c = '\r'
  · subst hcr
    rw [show escC '\r' = ['\\', 'r'] from by decide, List.cons_append, List.cons_append,
      List.nil_append, parseStrBody.eq_def]
    simp [unescapeC]
  by_cases ht : c = '\t'
  · subst ht
    rw [show escC '\t' = ['\\', 't'] from by decide, List.cons_append, List.cons_append,
      List.nil_append, parseStrBody.eq_def]
    simp [unescapeC]
  by_cases hlt : c.toNat < 32
  · by_cases h8 : c.toNat = 8
    · have hc : Char.ofNat 8 = c := by rw [← h8, Char.ofNat_toNat]
      simp only [escC, hq, hb, hn, hcr, ht, hlt, h8, if_neg, if_false, if_pos, if_true,
        List.cons_append, List.nil_append]
      rw [parseStrBody.eq_def]
      simp [unescapeC]
      rw [hc]
    · by_cases h12 : c.toNat = 12
      · have hc : Char.ofNat 12 = c := by rw [← h12, Char.ofNat_toNat]
        simp only [escC, hq, hb, hn, hcr, ht, hlt, h8, h12, if_neg, if_false, if_pos, if_true,
          List.cons_append, List.nil_append]
        rw [parseStrBody.eq_def]
        simp [unescapeC]
        rw [hc]
      · simp only [escC, hq, hb, hn, hcr, ht, hlt, h8, h12, if_neg, if_false, if_pos, if_true,
          List.cons_append, List.nil_append]
        have hdiv : c.toNat / 16 < 16 := by omega
        have hmod : c.toNat % 16 < 16 := by omega
        have hhex : hex4 '0' '0' (hexDigit (c.toNat / 16)) (hexDigit (c.toNat % 16))
            = some c.toNat := by
          rw [hex4.eq_def, hexVal_hexDigit _ hdiv, hexVal_hexDigit _ hmod,
            show hexVal '0' = some 0 from by decide]
          simp only []
          congr 1
          omega
        rw [parseStrBody.eq_def]
        simp [hhex, Char.ofNat_toNat]
  · simp only [escC, hq, hb, hn, hcr, ht, hlt, if_neg, if_false, List.cons_append,
      List.nil_append]
    have h32 : 32 ≤ c.toNat := by omega
    rw [parseStrBody.eq_def]
    simp [hq, hb, h32]

theorem parseStrBody_render (cs : List Char) (tail : List Char) :
    parseStrBody (cs.flatMap escC ++ '"' :: tail) = some (cs, tail) := by
  induction cs with
  | nil =>
    rw [List.flatMap_nil, List.nil_append, parseStrBody.eq_def]
    simp
  | cons c rest ih =>
    rw [List.flatMap_cons, List.append_assoc, parseStrBody_escC, ih]
    rfl

theorem strMk_toList (s : String) : String.mk s.toList = s := rfl

theorem takeLit_exact (w rest : List Char) : takeLit w (w ++ rest) = some rest := by
  simp [takeLit, List.take_left, List.drop_left]

theorem skipWs_cons_not {c : Char} (t : List Char) (h : isJsonWs c = false) :
    skipWs (c :: t) = c :: t := by
  simp [skipWs, List.dropWhile_cons, h]

theorem skipWs_space (t : List Char) : skipWs (' ' :: t) = skipWs t := by
  simp [skipWs, List.dropWhile_cons]
  intro h
  simp [isJsonWs] at h

theorem digitC_facts {c : Char} (h : isDigitC c = true) :
    isJsonWs c = false ∧ c ≠ ']' ∧ c ≠ '}' ∧ c ≠ ',' ∧ c ≠ '"' ∧ c ≠ '{' ∧ c ≠ '[' ∧
    c ≠ 'n' ∧ c ≠ 't' ∧ c ≠ 'f' ∧ c ≠ 'N' ∧ c ≠ 'I' ∧ c ≠ '-' ∧ numDelim (c :: []) = false := by
  have hn := h
  simp only [isDigitC, Bool.and_eq_true, decide_eq_true_eq] at hn
  refine ⟨by simp only [isJsonWs, Bool.or_eq_false_iff, decide_eq_false_iff_not]; omega,
    ?_, ?_, ?_, ?_, ?_, ?_, ?_, ?_, ?_, ?_, ?_, ?_, by simp [numDelim, h]⟩
  all_goals intro hrfl
  all_goals subst hrfl
  all_goals exact absurd h (by decide)

theorem numLit_shape {l : List Char} (h : parseNum l = some (l, [])) :
    ∃ c t, l = c :: t ∧ (c = '-' ∨ isDigitC c = true) := by
  match l with
  | [] => simp [parseNum] at h
  | c :: t =>
    refine ⟨c, t, rfl, ?_⟩
    by_cases hneg : c = '-'
    · exact Or.inl hneg
    · right
      rw [parseNum_cons_other t hneg] at h
      cases hip : intPart (c :: t) with
      | none => rw [numCore_none hip] at h; cases h
      | some p =>
        by_cases h0 : c = '0'
        · subst h0; decide
        · by_cases hc : isDigitC c
          · exact hc
          · rw [intPart_cons_nondigit t (by simpa using hc)] at hip; cases hip

theorem mget_eq_none {m : List (String × α)} {k : String} (h : ¬k ∈ mkeys m) :
    mget m k = none := by
  induction m with
  | nil => rfl
  | cons p t ih =>
    obtain ⟨k2, v2⟩ := p
    have hcons : mkeys ((k2, v2) :: t) = k2 :: mkeys t := rfl
    rw [hcons, List.mem_cons] at h
    push_neg at h
    have hne : ¬(k2 = k) := fun hh => h.1 hh.symm
    simp only [mget, if_neg hne]
    exact ih h.2

theorem dictOf_aux (pairs : List (String × Json)) :
    ∀ acc : List (String × Json), (mkeys (acc ++ pairs)).Nodup →
    pairs.foldl (fun m kv => mset m kv.1 kv.2) acc = acc ++ pairs := by
  induction pairs with
  | nil => intro acc _; simp
  | cons kv rest ih =>
    intro acc hnd
    obtain ⟨k, v⟩ := kv
    have hnd2 : (mkeys ((acc ++ [(k, v)]) ++ rest)).Nodup := by
      rw [List.append_assoc]
      exact hnd
    have hsplit : mkeys (acc ++ (k, v) :: rest) = mkeys acc ++ k :: mkeys rest := by
      simp [mkeys]
    have hmem : ¬k ∈ mkeys acc := by
      rw [hsplit, List.nodup_append] at hnd
      exact fun hk => hnd.2.2 hk (List.mem_cons_self k _)
    have hset : mset acc k v = acc ++ [(k, v)] := by
      simp [mset, mget_eq_none hmem]
    rw [List.foldl_cons]
    simp only [hset]
    rw [ih (acc ++ [(k, v)]) hnd2]
    simp

theorem dictOf_nodup {pairs : List (String × Json)} (h : (pairs.map Prod.fst).Nodup) :
    dictOf pairs = pairs := by
  have := dictOf_aux pairs [] (by simpa [mkeys] using h)
  simpa [dictOf] using this

theorem renderItemsL_cons (e : Json) (es : List Json) :
    renderItemsL (e :: es) = renderL e ++ renderISep es := by
  rw [renderItemsL]

theorem renderISep_cons (x : Json) (xs : List Json) :
    renderISep (x :: xs) = ',' :: ' ' :: renderItemsL (x :: xs) := by
  rw [renderISep, renderItemsL]

theorem renderMembersL_cons (k : String) (v : Json) (ms : List (String × Json)) :
    renderMembersL ((k, v) :: ms) = renderStrL k ++ ':' :: ' ' :: (renderL v ++ renderMSep ms) := by
  rw [renderMembersL]

theorem renderMSep_cons (k2 : String) (v2 : Json) (ms2 : List (String × Json)) :
    renderMSep ((k2, v2) :: ms2) = ',' :: ' ' :: renderMembersL ((k2, v2) :: ms2) := by
  rw [renderMSep, renderMembersL]

theorem renderL_arr (items : List Json) :
    renderL (.arr items) = '[' :: (renderItemsL items ++ [']']) := by
  rw [renderL]

theorem renderL_obj (ms : List (String × Json)) :
    renderL (.obj ms) = '{' :: (renderMembersL ms ++ ['}']) := by
  rw [renderL]

theorem renderStrL_length (s : String) :
    (renderStrL s).length = (s.toList.flatMap escC).length + 2 := by
  simp [renderStrL]

theorem jwf_num {lit : String} (h : jwf (.num lit) = true) :
    parseNum lit.toList = some (lit.toList, []) := by
  rw [jwf] at h
  exact of_decide_eq_true h

theorem renderL_head (j : Json) (hwf : jwf j = true) :
    ∃ c t, renderL j = c :: t ∧ isJsonWs c = false ∧ c ≠ ']' ∧ c ≠ '}' ∧ c ≠ ',' := by
  cases j with
  | null => exact ⟨'n', _, rfl, by decide, by decide, by decide, by decide⟩
  | bool b =>
    cases b with
    | true => exact ⟨'t', _, rfl, by decide, by decide, by decide, by decide⟩
    | false => exact ⟨'f', _, rfl, by decide, by decide, by decide, by decide⟩
  | str s => exact ⟨'"', _, rfl, by decide, by decide, by decide, by decide⟩
  | arr items => exact ⟨'[', _, renderL_arr items, by decide, by decide, by decide, by decide⟩
  | obj ms => exact ⟨'{', _, renderL_obj ms, by decide, by decide, by decide, by decide⟩
  | num lit =>
    obtain ⟨c, t, hl, hc⟩ := numLit_shape (jwf_num hwf)
    refine ⟨c, t, by rw [renderL, hl], ?_, ?_, ?_, ?_⟩
    · rcases hc with rfl | hd
      · decide
      · exact (digitC_facts hd).1
    · rcases hc with rfl | hd
      · decide
      · exact (digitC_facts hd).2.1
    · rcases hc with rfl | hd
      · decide
      · exact (digitC_facts hd).2.2.1
    · rcases hc with rfl | hd
      · decide
      · exact (digitC_facts hd).2.2.2.1

theorem skipWs_renderL (j : Json) (hwf : jwf j = true) (x : List Char) :
    skipWs (renderL j ++ x) = renderL j ++ x := by
  obtain ⟨c, t, hr, hws, -, -, -⟩ := renderL_head j hwf
  rw [hr, List.cons_append, skipWs_cons_not _ hws]

theorem numDelim_cons_ne {c : Char} (r : List Char)
    (h : (isDigitC c || c = '.' || c = 'e' || c = 'E') = false) :
    numDelim (c :: r) = true := by
  simp [numDelim, h]

theorem json_sizeOf_pos (j : Json) : 0 < sizeOf j := by
  cases j <;> simp_arith

mutual

theorem rtVal : ∀ (j : Json) (fuel : Nat) (rest : List Char),
    jwf j = true → (renderL j).length < fuel → numDelim rest = true →
    parseVal fuel (renderL j ++ rest) = some (j, rest)
  | .null, fuel, rest, _, hfuel, _ => by
    cases fuel with
    | zero =>
      have h4 : (renderL .null).length = 4 := rfl
      omega
    | succ f =>
      show parseVal (f + 1) ('n' :: (['u', 'l', 'l'] ++ rest)) = some (.null, rest)
      rw [parseVal.eq_def]
      simp only [if_neg (by decide : ¬('n' = '"')), if_neg (by decide : ¬('n' = '{')),
        if_neg (by decide : ¬('n' = '[')), if_pos (rfl : 'n' = 'n')]
      simp only [if_true, takeLit_exact]
  | .bool true, fuel, rest, _, hfuel, _ => by
    cases fuel with
    | zero =>
      have h4 : (renderL (.bool true)).length = 4 := rfl
      omega
    | succ f =>
      show parseVal (f + 1) ('t' :: (['r', 'u', 'e'] ++ rest)) = some (.bool true, rest)
      rw [parseVal.eq_def]
      simp only [if_neg (by decide : ¬('t' = '"')), if_neg (by decide : ¬('t' = '{')),
        if_neg (by decide : ¬('t' = '[')), if_neg (by decide : ¬('t' = 'n')),
        if_pos (rfl : 't' = 't')]
      simp only [if_true, takeLit_exact]
  | .bool false, fuel, rest, _, hfuel, _ => by
    cases fuel with
    | zero =>
      have h5 : (renderL (.bool false)).length = 5 := rfl
      omega
    | succ f =>
      show parseVal (f + 1) ('f' :: (['a', 'l', 's', 'e'] ++ rest)) = some (.bool false, rest)
      rw [parseVal.eq_def]
      simp only [if_neg (by decide : ¬('f' = '"')), if_neg (by decide : ¬('f' = '{')),
        if_neg (by decide : ¬('f' = '[')), if_neg (by decide : ¬('f' = 'n')),
        if_neg (by decide : ¬('f' = 't')), if_pos (rfl : 'f' = 'f')]
      simp only [if_true, takeLit_exact]
  | .str s, fuel, rest, _, hfuel, _ => by
    cases fuel with
    | zero =>
      have h1 : 1 ≤ (renderL (.str s)).length := by
        rw [renderL, renderStrL]
        simp
      omega
    | succ f =>
      show parseVal (f + 1) (renderStrL s ++ rest) = some (.str s, rest)
      rw [renderStrL, List.cons_append, List.append_assoc, List.cons_append, List.nil_append]
      rw [parseVal.eq_def]
      simp [parseStrBody_render, strMk_toList]
  | .num lit, fuel, rest, hwf, hfuel, hrest => by
    cases fuel with
    | zero => exact absurd hfuel (Nat.not_lt_zero _)
    | succ f =>
      have hp := jwf_num hwf
      obtain ⟨c, t, hl, hc⟩ := numLit_shape hp
      have hext : parseNum (lit.toList ++ rest) = some (lit.toList, rest) :=
        parseNum_ext hp hrest
      obtain ⟨hq1, hq2, hq3, hq4, hq5, hq6, hq7, hq8⟩ :
          c ≠ '"' ∧ c ≠ '{' ∧ c ≠ '[' ∧ c ≠ 'n' ∧ c ≠ 't' ∧ c ≠ 'f' ∧
          c ≠ 'N' ∧ c ≠ 'I' := by
        rcases hc with rfl | hd
        · exact ⟨by decide, by decide, by decide, by decide, by decide, by decide,
            by decide, by decide⟩
        · obtain ⟨-, -, -, -, h1, h2, h3, h4, h5, h6, h7, h8, -, -⟩ := digitC_facts hd
          exact ⟨h1, h2, h3, h4, h5, h6, h7, h8⟩
      rw [show renderL (.num lit) = lit.toList from rfl, hl, List.cons_append]
      rw [hl, List.cons_append] at hext
      rw [parseVal.eq_def]
      simp only [hq1, hq2, hq3, hq4, hq5, hq6, hq7, hq8, if_neg, if_false, ite_false, hext]
      rw [← hl, strMk_toList]
  | .arr [], fuel, rest, _, hfuel, _ => by
    cases fuel with
    | zero =>
      have h2 : (renderL (.arr [])).length = 2 := rfl
      omega
    | succ f =>
      show parseVal (f + 1) ('[' :: (']' :: rest)) = some (.arr [], rest)
      rw [parseVal.eq_def]
      simp [skipWs_cons_not _ (by decide : isJsonWs ']' = false)]
  | .arr (e :: es), fuel, rest, hwf, hfuel, _ => by
    cases fuel with
    | zero => exact absurd hfuel (Nat.not_lt_zero _)
    | succ f =>
      rw [jwf] at hwf
      have hwf2 : jwf e = true ∧ jwfItems es = true := by
        rw [jwfItems] at hwf
        exact ⟨(Bool.and_eq_true .. ▸ hwf).1, (Bool.and_eq_true .. ▸ hwf).2⟩
      have hlen : (renderL (.arr (e :: es))).length = (renderItemsL (e :: es)).length + 2 := by
        rw [renderL_arr]
        simp
      have hkey := rtItems e es f rest hwf (by omega)
      have hshape : renderL (.arr (e :: es)) ++ rest
          = '[' :: (renderItemsL (e :: es) ++ ']' :: rest) := by
        rw [renderL_arr]
        simp
      rw [hshape, parseVal.eq_def]
      simp only [if_neg (by decide : ¬('[' = '"')), if_neg (by decide : ¬('[' = '{')),
        if_pos (rfl : '[' = '[')]
      have hsw : skipWs (renderItemsL (e :: es) ++ ']' :: rest)
          = renderItemsL (e :: es) ++ ']' :: rest := by
        rw [renderItemsL_cons, List.append_assoc]
        exact skipWs_renderL e hwf2.1 _
      obtain ⟨c2, t2, hre, hws2, hrb2, -, -⟩ := renderL_head e hwf2.1
      have hcons : renderItemsL (e :: es) ++ ']' :: rest
          = c2 :: (t2 ++ (renderISep es ++ ']' :: rest)) := by
        rw [renderItemsL_cons, hre]
        simp
      rw [hsw, hcons]
      simp only [if_neg hrb2]
      rw [← hcons, hkey]
      simp
  | .obj [], fuel, rest, _, hfuel, _ => by
    cases fuel with
    | zero =>
      have h2 : (renderL (.obj [])).length = 2 := rfl
      omega
    | succ f =>
      show parseVal (f + 1) ('{' :: ('}' :: rest)) = some (.obj [], rest)
      rw [parseVal.eq_def]
      simp [skipWs_cons_not _ (by decide : isJsonWs '}' = false)]
  | .obj ((k, v) :: ms), fuel, rest, hwf, hfuel, _ => by
    cases fuel with
    | zero => exact absurd hfuel (Nat.not_lt_zero _)
    | succ f =>
      rw [jwf] at hwf
      have hwfm : jwfMembers ((k, v) :: ms) = true ∧
          decide ((((k, v) :: ms).map Prod.fst).Nodup) = true := by
        exact ⟨(Bool.and_eq_true .. ▸ hwf).1, (Bool.and_eq_true .. ▸ hwf).2⟩
      have hlen : (renderL (.obj ((k, v) :: ms))).length
          = (renderMembersL ((k, v) :: ms)).length + 2 := by
        rw [renderL_obj]
        simp
      have hkey := rtMembers k v ms f rest hwfm.1 (by omega)
      have hshape : renderL (.obj ((k, v) :: ms)) ++ rest
          = '{' :: (renderMembersL ((k, v) :: ms) ++ '}' :: rest) := by
        rw [renderL_obj]
        simp
      rw [hshape, parseVal.eq_def]
      simp only [if_neg (by decide : ¬('{' = '"')), if_pos (rfl : '{' = '{')]
      have hcons : renderMembersL ((k, v) :: ms) ++ '}' :: rest
          = '"' :: ((k.toList.flatMap escC ++ ['"'])
              ++ (':' :: ' ' :: (renderL v ++ renderMSep ms) ++ '}' :: rest)) := by
        rw [renderMembersL_cons, renderStrL]
        simp
      have hsw : skipWs (renderMembersL ((k, v) :: ms) ++ '}' :: rest)
          = renderMembersL ((k, v) :: ms) ++ '}' :: rest := by
        rw [hcons]
        exact skipWs_cons_not _ (by decide)
      rw [hsw, hcons]
      simp only [if_neg (by decide : ¬('"' = '}'))]
      rw [← hcons, hkey]
      have hnd : (((k, v) :: ms).map Prod.fst).Nodup := of_decide_eq_true hwfm.2
      simp [dictOf_nodup hnd]
  termination_by j _ _ _ _ _ => sizeOf j
  decreasing_by
    all_goals simp_wf
    all_goals omega

theorem rtItems : ∀ (e : Json) (es : List Json) (fuel : Nat) (rest : List Char),
    jwfItems (e :: es) = true → (renderItemsL (e :: es)).length + 1 < fuel →
    parseItemSeq fuel (renderItemsL (e :: es) ++ ']' :: rest) = some (e :: es, rest)
  | e, [], fuel, rest, hwf, hfuel => by
    have hwfe : jwf e = true := by
      rw [jwfItems] at hwf
      exact (Bool.and_eq_true .. ▸ hwf).1
    cases fuel with
    | zero => omega
    | succ f2 =>
      have hlen : (renderItemsL [e]).length = (renderL e).length := by
        rw [renderItemsL_cons, renderISep]
        simp
      have hv := rtVal e f2 (']' :: rest) hwfe (by omega) (numDelim_cons_ne _ (by decide))
      have hshape : renderItemsL [e] ++ ']' :: rest = renderL e ++ (']' :: rest) := by
        rw [renderItemsL_cons, renderISep]
        simp
      rw [hshape, parseItemSeq.eq_def]
      simp only [hv]
      rw [skipWs_cons_not _ (by decide : isJsonWs ']' = false)]
      simp
  | e, x :: xs, fuel, rest, hwf, hfuel => by
    have hwf2 : jwf e = true ∧ jwfItems (x :: xs) = true := by
      rw [jwfItems] at hwf
      exact ⟨(Bool.and_eq_true .. ▸ hwf).1, (Bool.and_eq_true .. ▸ hwf).2⟩
    cases fuel with
    | zero => omega
    | succ f2 =>
      have hlen : (renderItemsL (e :: x :: xs)).length
          = (renderL e).length + (renderISep (x :: xs)).length := by
        rw [renderItemsL_cons]
        simp
      have hdelim : numDelim (renderISep (x :: xs) ++ ']' :: rest) = true := by
        rw [renderISep_cons]
        exact numDelim_cons_ne _ (by decide)
      have hv := rtVal e f2 (renderISep (x :: xs) ++ ']' :: rest) hwf2.1 (by omega) hdelim
      have hshape : renderItemsL (e :: x :: xs) ++ ']' :: rest
          = renderL e ++ (renderISep (x :: xs) ++ ']' :: rest) := by
        rw [renderItemsL_cons]
        simp
      rw [hshape, parseItemSeq.eq_def]
      simp only [hv]
      have hsepshape : renderISep (x :: xs) ++ ']' :: rest
          = ',' :: (' ' :: (renderItemsL (x :: xs) ++ ']' :: rest)) := by
        rw [renderISep_cons]
        simp
      rw [hsepshape, skipWs_cons_not _ (by decide : isJsonWs ',' = false)]
      simp only [if_pos (rfl : ',' = ',')]
      rw [skipWs_space]
      have hswx : skipWs (renderItemsL (x :: xs) ++ ']' :: rest)
          = renderItemsL (x :: xs) ++ ']' :: rest := by
        rw [renderItemsL_cons, List.append_assoc]
        have hxwf : jwf x = true := by
          have h2 := hwf2.2
          rw [jwfItems] at h2
          exact (Bool.and_eq_true .. ▸ h2).1
        exact skipWs_renderL x hxwf _
      rw [hswx]
      have hlen2 : (renderItemsL (x :: xs)).length + 2 = (renderISep (x :: xs)).length := by
        rw [renderISep_cons]
        simp
      have hneed : (renderItemsL (x :: xs)).length + 1 < f2 := by omega
      rw [rtItems x xs f2 rest hwf2.2 hneed]
      simp
  termination_by e es _ _ _ _ => 1 + sizeOf e + sizeOf es
  decreasing_by
    all_goals simp_wf
    all_goals omega

theorem rtMembers : ∀ (k : String) (v : Json) (ms : List (String × Json)) (fuel : Nat)
    (rest : List Char),
    jwfMembers ((k, v) :: ms) = true →
    (renderMembersL ((k, v) :: ms)).length + 1 < fuel →
    parseMemberSeq fuel (renderMembersL ((k, v) :: ms) ++ '}' :: rest)
      = some ((k, v) :: ms, rest)
  | k, v, [], fuel, rest, hwf, hfuel => by
    have hwfv : jwf v = true := by
      rw [jwfMembers] at hwf
      exact (Bool.and_eq_true .. ▸ hwf).1
    cases fuel with
    | zero => omega
    | succ f2 =>
      have hlen : (renderMembersL [(k, v)]).length
          = (k.toList.flatMap escC).length + 4 + (renderL v).length := by
        rw [renderMembersL_cons, renderStrL, renderMSep]
        simp
        omega
      have hv := rtVal v f2 ('}' :: rest) hwfv (by omega) (numDelim_cons_ne _ (by decide))
      have hshape : renderMembersL [(k, v)] ++ '}' :: rest
          = '"' :: (k.toList.flatMap escC
              ++ '"' :: (':' :: ' ' :: (renderL v ++ '}' :: rest))) := by
        rw [renderMembersL_cons, renderStrL, renderMSep]
        simp
      rw [hshape, parseMemberSeq.eq_def]
      simp only [if_pos (rfl : '"' = '"')]
      rw [parseStrBody_render]
      simp only []
      rw [skipWs_cons_not _ (by decide : isJsonWs ':' = false)]
      simp only [if_pos (rfl : ':' = ':')]
      rw [skipWs_space, skipWs_renderL v hwfv, hv]
      simp only []
      rw [skipWs_cons_not _ (by decide : isJsonWs '}' = false)]
      simp [strMk_toList]
  | k, v, (k2, v2) :: ms2, fuel, rest, hwf, hfuel => by
    have hwf2 : jwf v = true ∧ jwfMembers ((k2, v2) :: ms2) = true := by
      rw [jwfMembers] at hwf
      exact ⟨(Bool.and_eq_true .. ▸ hwf).1, (Bool.and_eq_true .. ▸ hwf).2⟩
    cases fuel with
    | zero => omega
    | succ f2 =>
      have hlen : (renderMembersL ((k, v) :: (k2, v2) :: ms2)).length
          = (k.toList.flatMap escC).length + 4 + (renderL v).length
            + (renderMSep ((k2, v2) :: ms2)).length := by
        rw [renderMembersL_cons, renderStrL]
        simp
        omega
      have hdelim : numDelim (renderMSep ((k2, v2) :: ms2) ++ '}' :: rest) = true := by
        rw [renderMSep_cons]
        exact numDelim_cons_ne _ (by decide)
      have hv := rtVal v f2 (renderMSep ((k2, v2) :: ms2) ++ '}' :: rest) hwf2.1
        (by omega) hdelim
      have hshape : renderMembersL ((k, v) :: (k2, v2) :: ms2) ++ '}' :: rest
          = '"' :: (k.toList.flatMap escC
              ++ '"' :: (':' :: ' ' :: (renderL v
                  ++ (renderMSep ((k2, v2) :: ms2) ++ '}' :: rest)))) := by
        rw [renderMembersL_cons, renderStrL]
        simp
      rw [hshape, parseMemberSeq.eq_def]
      simp only [if_pos (rfl : '"' = '"')]
      rw [parseStrBody_render]
      simp only []
      rw [skipWs_cons_not _ (by decide : isJsonWs ':' = false)]
      simp only [if_pos (rfl : ':' = ':')]
      rw [skipWs_space, skipWs_renderL v hwf2.1, hv]
      simp only []
      have hsepshape : renderMSep ((k2, v2) :: ms2) ++ '}' :: rest
          = ',' :: (' ' :: (renderMembersL ((k2, v2) :: ms2) ++ '}' :: rest)) := by
        rw [renderMSep_cons]
        simp
      rw [hsepshape, skipWs_cons_not _ (by decide : isJsonWs ',' = false)]
      simp only [if_pos (rfl : ',' = ',')]
      rw [skipWs_space]
      have hswm : skipWs (renderMembersL ((k2, v2) :: ms2) ++ '}' :: rest)
          = renderMembersL ((k2, v2) :: ms2) ++ '}' :: rest := by
        rw [renderMembersL_cons, renderStrL]
        simp only [List.cons_append, List.append_assoc]
        exact skipWs_cons_not _ (by decide)
      rw [hswm]
      have hlen2 : (renderMembersL ((k2, v2) :: ms2)).length + 2
          = (renderMSep ((k2, v2) :: ms2)).length := by
        rw [renderMSep_cons]
        simp
      have hneed : (renderMembersL ((k2, v2) :: ms2)).length + 1 < f2 := by omega
      rw [rtMembers k2 v2 ms2 f2 rest hwf2.2 hneed]
      simp [strMk_toList]
  termination_by k v ms _ _ _ _ => 1 + sizeOf v + sizeOf ms
  decreasing_by
    all_goals simp_wf
    all_goals omega

end


/-- The codec round-trip at the `json.loads` / `json.dumps` level. -/
theorem parseJson_render (j : Json) (hwf : jwf j = true) : parseJson (render j) = some j := by
  have hlist : (render j).toList = renderL j := rfl
  have hsw : skipWs (renderL j) = renderL j := by
    have h2 := skipWs_renderL j hwf []
    simpa using h2
  have hrt := rtVal j ((renderL j).length + 1) [] hwf (by omega) (by decide)
  rw [List.append_nil] at hrt
  rw [parseJson, hlist, hsw, hrt]
  simp [skipWs]

/-! ## Persistence round-trip (save then load) -/


theorem pyStripL_ne_nil {c : Char} {t : List Char} (h : isPySpace c = false) :
    pyStripL (c :: t) ≠ [] := by
  intro hcontra
  rw [pyStripL, dropTrailing, List.dropWhile_cons, h] at hcontra
  simp only [Bool.false_eq_true, if_false, List.reverse_eq_nil_iff,
    List.dropWhile_eq_nil_iff] at hcontra
  have h3 := hcontra c (by simp)
  rw [h3] at h
  cases h

theorem jwf_recordOf {t : String} {e : KTEntry} (hd : jwf e.defn = true)
    (hr : jwf e.rel = true) : jwf (recordOf t e) = true := by
  rw [recordOf, jwf, jwfMembers, jwfMembers, jwfMembers, jwfMembers, jwf]
  simp [hd, hr]

theorem renderL_head_ne_space (j : Json) (hwf : jwf j = true) :
    ∃ c t, renderL j = c :: t ∧ isPySpace c = false := by
  obtain ⟨c, t, hr, hws, -, -, -⟩ := renderL_head j hwf
  refine ⟨c, t, hr, ?_⟩
  simp only [isJsonWs, Bool.or_eq_false_iff, decide_eq_false_iff_not] at hws
  -- the record head is one of the JSON start characters, none of which is
  -- vertical tab or form feed either; rule those out by their codes
  by_cases h11 : c.toNat = 11
  · exfalso
    -- a rendered value never starts with a control character
    cases j with
    | null => rw [show renderL .null = ['n', 'u', 'l', 'l'] from rfl] at hr; cases hr; simp at h11
    | bool b =>
      cases b with
      | true => rw [show renderL (.bool true) = ['t', 'r', 'u', 'e'] from rfl] at hr; cases hr; simp at h11
      | false => rw [show renderL (.bool false) = ['f', 'a', 'l', 's', 'e'] from rfl] at hr; cases hr; simp at h11
    | str s => rw [renderL, renderStrL] at hr; cases hr; simp at h11
    | arr items => rw [renderL_arr] at hr; cases hr; simp at h11
    | obj ms => rw [renderL_obj] at hr; cases hr; simp at h11
    | num lit =>
      obtain ⟨c2, t2, hl, hc⟩ := numLit_shape (jwf_num hwf)
      rw [show renderL (.num lit) = lit.toList from rfl, hl] at hr
      obtain ⟨rfl, -⟩ := List.cons.injEq .. ▸ hr
      rcases hc with rfl | hdg
      · simp at h11
      · simp only [isDigitC, Bool.and_eq_true, decide_eq_true_eq] at hdg
        omega
  · by_cases h12 : c.toNat = 12
    · exfalso
      cases j with
      | null => rw [show renderL .null = ['n', 'u', 'l', 'l'] from rfl] at hr; cases hr; simp at h12
      | bool b =>
        cases b with
        | true => rw [show renderL (.bool true) = ['t', 'r', 'u', 'e'] from rfl] at hr; cases hr; simp at h12
        | false => rw [show renderL (.bool false) = ['f', 'a', 'l', 's', 'e'] from rfl] at hr; cases hr; simp at h12
      | str s => rw [renderL, renderStrL] at hr; cases hr; simp at h12
      | arr items => rw [renderL_arr] at hr; cases hr; simp at h12
      | obj ms => rw [renderL_obj] at hr; cases hr; simp at h12
      | num lit =>
        obtain ⟨c2, t2, hl, hc⟩ := numLit_shape (jwf_num hwf)
        rw [show renderL (.num lit) = lit.toList from rfl, hl] at hr
        obtain ⟨rfl, -⟩ := List.cons.injEq .. ▸ hr
        rcases hc with rfl | hdg
        · simp at h12
        · simp only [isDigitC, Bool.and_eq_true, decide_eq_true_eq] at hdg
          omega
    · simp only [isPySpace, Bool.or_eq_false_iff, decide_eq_false_iff_not]
      refine ⟨⟨⟨⟨⟨?_, ?_⟩, ?_⟩, ?_⟩, ?_⟩, ?_⟩ <;> omega

theorem pyStrip_render_ne {j : Json} (hwf : jwf j = true) : pyStrip (render j) ≠ "" := by
  obtain ⟨c, t, hr, hps⟩ := renderL_head_ne_space j hwf
  intro hcontra
  have h1 : pyStripL (render j).toList = [] := by
    have h2 : (pyStrip (render j)).toList = ("" : String).toList := by rw [hcontra]
    simpa [pyStrip] using h2
  rw [show (render j).toList = renderL j from rfl, hr] at h1
  exact pyStripL_ne_nil hps h1

theorem loadLine_record {t : String} {e : KTEntry} (ht : t ≠ "")
    (hd : jwf e.defn = true) (hr : jwf e.rel = true) :
    loadLine (render (recordOf t e)) = .entry t e := by
  have hwfr := @jwf_recordOf t e hd hr
  have hterm : mget [("term", Json.str t), ("definition", e.defn), ("relevance", e.rel)]
      "term" = some (.str t) := by
    rw [mget, if_pos rfl]
  have htr : truthy (.str t) = true := by
    simp [truthy, ht]
  have hdef : mget [("term", Json.str t), ("definition", e.defn), ("relevance", e.rel)]
      "definition" = some e.defn := by
    rw [mget, if_neg (by decide), mget, if_pos rfl]
  have hrel : mget [("term", Json.str t), ("definition", e.defn), ("relevance", e.rel)]
      "relevance" = some e.rel := by
    rw [mget, if_neg (by decide), mget, if_neg (by decide), mget, if_pos rfl]
  rw [loadLine, if_neg (pyStrip_render_ne hwfr), parseJson_render _ hwfr, recordOf]
  simp only [hterm, htr, hdef, hrel, if_true, Option.getD_some]

theorem loadLines_save : ∀ (m acc : KMap), (mkeys (acc ++ m)).Nodup →
    (∀ kv ∈ m, kv.1 ≠ "" ∧ jwf kv.2.defn = true ∧ jwf kv.2.rel = true) →
    loadLines acc (save_key_terms m) = ⟨acc ++ m, false, false⟩
  | [], acc, _, _ => by simp [save_key_terms, loadLines]
  | (t, e) :: rest, acc, hnd, hgood => by
    have hg1 : t ≠ "" ∧ jwf e.defn = true ∧ jwf e.rel = true := hgood (t, e) (by simp)
    have hline := loadLine_record hg1.1 hg1.2.1 hg1.2.2
    rw [save_key_terms, List.map_cons]
    rw [loadLines, hline]
    simp only []
    have hsplit : mkeys (acc ++ (t, e) :: rest) = mkeys acc ++ t :: mkeys rest := by
      simp [mkeys]
    have hmem : ¬t ∈ mkeys acc := by
      rw [hsplit, List.nodup_append] at hnd
      exact fun hk => hnd.2.2 hk (List.mem_cons_self t _)
    have hset : mset acc t e = acc ++ [(t, e)] := by
      simp [mset, mget_eq_none hmem]
    rw [hset]
    have hnd2 : (mkeys ((acc ++ [(t, e)]) ++ rest)).Nodup := by
      rw [List.append_assoc]
      exact hnd
    have hrec := loadLines_save rest (acc ++ [(t, e)]) hnd2
      (fun kv hkv => hgood kv (by simp [hkv]))
    rw [show save_key_terms rest = rest.map (fun kv => render (recordOf kv.1 kv.2)) from rfl]
      at hrec
    rw [hrec]
    simp

/-- Saving a store and loading the file back restores the store exactly. -/
theorem load_save_roundtrip (m : KMap) (hgood : goodStore m) :
    load_key_terms (some (save_key_terms m)) = ⟨m, save_key_terms m, false, false⟩ := by
  rw [load_key_terms]
  have h2 := loadLines_save m [] (by simpa [mkeys] using hgood.1) hgood.2
  rw [h2]
  simp

/-! ## Character-level facts about rendered JSON text

For the fence-stripping analysis (C9): a `json.dumps` rendering contains no
newline — every whitespace character in it is a plain space — and its first
and last characters are neither whitespace nor a backtick. -/

theorem gl_mem : ∀ (l : List Char) (c : Char), l.getLast? = some c → c ∈ l
  | [x], c, h => by
    simp only [List.getLast?_singleton, Option.some.injEq] at h
    simp [h]
  | x :: y :: t, c, h => by
    rw [List.getLast?_cons_cons] at h
    exact List.mem_cons_of_mem x (gl_mem (y :: t) c h)

theorem gl_ne_nil : ∀ (l : List Char), l ≠ [] → ∃ c, l.getLast? = some c
  | [x], _ => ⟨x, by simp⟩
  | x :: y :: t, _ => by
    obtain ⟨c, hc⟩ := gl_ne_nil (y :: t) (by simp)
    exact ⟨c, by rw [List.getLast?_cons_cons]; exact hc⟩

theorem gl_append_right (a : List Char) {b : List Char} (hb : b ≠ []) :
    (a ++ b).getLast? = b.getLast? := by
  induction a with
  | nil => rfl
  | cons c t ih =>
    rw [List.cons_append]
    have hne : t ++ b ≠ [] := by simp [hb]
    cases he : t ++ b with
    | nil => exact absurd he hne
    | cons x r => rw [List.getLast?_cons_cons, ← he, ih]

theorem gl_cons_of_ne {c : Char} {l : List Char} (h : l ≠ []) :
    (c :: l).getLast? = l.getLast? := by
  cases l with
  | nil => exact absurd rfl h
  | cons x t => exact List.getLast?_cons_cons

/-- A decimal digit is neither regex whitespace nor a backtick nor a newline. -/
theorem digit_clean {c : Char} (h : isDigitC c = true) :
    isPySpace c = false ∧ c ≠ tickC := by
  simp only [isDigitC, Bool.and_eq_true, decide_eq_true_eq] at h
  constructor
  · simp only [isPySpace, Bool.or_eq_false_iff, decide_eq_false_iff_not]
    refine ⟨⟨⟨⟨⟨?_, ?_⟩, ?_⟩, ?_⟩, ?_⟩, ?_⟩ <;> omega
  · intro hc
    rw [hc] at h
    exact absurd h (by decide)

theorem spanDigits_mem : ∀ (l : List Char), ∀ c ∈ (spanDigits l).1, isDigitC c = true
  | [], c, h => by simp [spanDigits] at h
  | d :: t, c, h => by
    by_cases hd : isDigitC d
    · rw [spanDigits_cons_digit t hd] at h
      rcases List.mem_cons.1 h with rfl | hm
      · exact hd
      · exact spanDigits_mem t c hm
    · rw [spanDigits_cons_nondigit t (by simpa using hd)] at h
      simp at h

theorem intPart_chars : ∀ {m ip r : List Char}, intPart m = some (ip, r) →
    ip ≠ [] ∧ ∀ c ∈ ip, isDigitC c = true := by
  intro m ip r h
  match m with
  | [] => cases h
  | c :: t =>
    rw [intPart] at h
    by_cases h0 : c = '0'
    · rw [if_pos h0] at h
      obtain ⟨rfl, -⟩ := Prod.mk.injEq .. ▸ Option.some.injEq .. ▸ h
      refine ⟨by simp, ?_⟩
      intro x hx
      simp only [List.mem_singleton] at hx
      subst hx
      decide
    · rw [if_neg h0] at h
      by_cases hd : isDigitC c
      · rw [if_pos hd] at h
        simp only [Option.some.injEq, Prod.mk.injEq] at h
        obtain ⟨rfl, -⟩ := h
        refine ⟨by simp, ?_⟩
        intro x hx
        rcases List.mem_cons.1 hx with rfl | hm
        · exact hd
        · exact spanDigits_mem t x hm
      · rw [if_neg hd] at h
        cases h

theorem fracPart_chars : ∀ {m fp r : List Char}, fracPart m = (fp, r) →
    fp = [] ∨ ∃ d, fp = '.' :: d ∧ d ≠ [] ∧ ∀ c ∈ d, isDigitC c = true := by
  intro m fp r h
  match m with
  | [] =>
    rw [fracPart] at h
    obtain ⟨rfl, -⟩ := Prod.mk.injEq .. ▸ h
    exact Or.inl rfl
  | c :: t =>
    rw [fracPart] at h
    have hs : spanDigits t = ((spanDigits t).1, (spanDigits t).2) := rfl
    rw [hs] at h
    simp only [] at h
    by_cases hdot : c = '.'
    · rw [if_pos hdot] at h
      by_cases hnil : (spanDigits t).1 = []
      · rw [if_pos hnil] at h
        obtain ⟨rfl, -⟩ := Prod.mk.injEq .. ▸ h
        exact Or.inl rfl
      · rw [if_neg hnil] at h
        obtain ⟨rfl, -⟩ := Prod.mk.injEq .. ▸ h
        exact Or.inr ⟨(spanDigits t).1, by rw [hdot], hnil, spanDigits_mem t⟩
    · rw [if_neg hdot] at h
      obtain ⟨rfl, -⟩ := Prod.mk.injEq .. ▸ h
      exact Or.inl rfl

theorem expPart_chars : ∀ {m ep r : List Char}, expPart m = (ep, r) →
    ep = [] ∨ ∃ c sgn d, ep = c :: (sgn ++ d) ∧ (c = 'e' ∨ c = 'E') ∧
      (sgn = [] ∨ sgn = ['+'] ∨ sgn = ['-']) ∧ d ≠ [] ∧ ∀ x ∈ d, isDigitC x = true := by
  intro m ep r h
  match m with
  | [] =>
    rw [expPart] at h
    obtain ⟨rfl, -⟩ := Prod.mk.injEq .. ▸ h
    exact Or.inl rfl
  | c :: t =>
    rw [expPart] at h
    by_cases he : c = 'e' || c = 'E'
    · rw [if_pos he] at h
      have hee : c = 'e' ∨ c = 'E' := by simpa using he
      have hgen : ∀ (sgn m2 : List Char), (sgn = [] ∨ sgn = ['+'] ∨ sgn = ['-']) →
          (match spanDigits m2 with
            | (d, _r) => if d = [] then (([] : List Char), c :: t)
                else (c :: (sgn ++ d), (spanDigits m2).2)) = (ep, r) →
          ep = [] ∨ ∃ c2 sgn2 d, ep = c2 :: (sgn2 ++ d) ∧ (c2 = 'e' ∨ c2 = 'E') ∧
            (sgn2 = [] ∨ sgn2 = ['+'] ∨ sgn2 = ['-']) ∧ d ≠ [] ∧
            ∀ x ∈ d, isDigitC x = true := by
        intro sgn m2 hsgn h2
        have hs : spanDigits m2 = ((spanDigits m2).1, (spanDigits m2).2) := rfl
        rw [hs] at h2
        simp only [] at h2
        by_cases hnil : (spanDigits m2).1 = []
        · rw [if_pos hnil] at h2
          obtain ⟨rfl, -⟩ := Prod.mk.injEq .. ▸ h2
          exact Or.inl rfl
        · rw [if_neg hnil] at h2
          obtain ⟨rfl, -⟩ := Prod.mk.injEq .. ▸ h2
          exact Or.inr ⟨c, sgn, (spanDigits m2).1, rfl, hee, hsgn, hnil, spanDigits_mem m2⟩
      cases t with
      | nil =>
        refine hgen [] [] (Or.inl rfl) ?_
        simpa using h
      | cons s t2 =>
        by_cases hpm : s = '+' || s = '-'
        · refine hgen [s] t2 ?_ ?_
          · rcases (by simpa using hpm : s = '+' ∨ s = '-') with rfl | rfl
            · exact Or.inr (Or.inl rfl)
            · exact Or.inr (Or.inr rfl)
          · simpa [hpm] using h
        · refine hgen [] (s :: t2) (Or.inl rfl) ?_
          simpa [hpm] using h
    · rw [if_neg he] at h
      obtain ⟨rfl, -⟩ := Prod.mk.injEq .. ▸ h
      exact Or.inl rfl

/-- Characters of a number token: no whitespace, no backtick; and the token
    ends in a digit. -/
theorem numCore_chars {m w r : List Char} (h : numCore m = some (w, r)) :
    (∀ c ∈ w, isPySpace c = false ∧ c ≠ tickC) ∧
    ∃ c, w.getLast? = some c ∧ isDigitC c = true := by
  rw [numCore] at h
  cases hip : intPart m with
  | none => rw [hip] at h; cases h
  | some p =>
    obtain ⟨ip, r1⟩ := p
    rw [hip] at h
    simp only [] at h
    rcases hf : fracPart r1 with ⟨fp, r2⟩
    rcases hx : expPart r2 with ⟨ep, r3⟩
    rw [hf, hx] at h
    simp only [Option.some.injEq, Prod.mk.injEq] at h
    obtain ⟨rfl, -⟩ := h
    obtain ⟨hipne, hipd⟩ := intPart_chars hip
    have hfp := fracPart_chars hf
    have hep := expPart_chars hx
    constructor
    · intro c hc
      rcases List.mem_append.1 hc with hc2 | hcep
      · rcases List.mem_append.1 hc2 with hcip | hcfp
        · exact digit_clean (hipd c hcip)
        · rcases hfp with rfl | ⟨d, rfl, -, hd⟩
          · simp at hcfp
          · rcases List.mem_cons.1 hcfp with rfl | hm
            · exact ⟨by decide, by decide⟩
            · exact digit_clean (hd c hm)
      · rcases hep with rfl | ⟨e, sgn, d, rfl, hev, hsgn, -, hd⟩
        · simp at hcep
        · rcases List.mem_cons.1 hcep with rfl | hm
          · rcases hev with rfl | rfl
            · exact ⟨by decide, by decide⟩
            · exact ⟨by decide, by decide⟩
          · rcases List.mem_append.1 hm with hcs | hcd
            · rcases hsgn with rfl | rfl | rfl
              · simp at hcs
              · simp at hcs
                subst hcs
                exact ⟨by decide, by decide⟩
              · simp at hcs
                subst hcs
                exact ⟨by decide, by decide⟩
            · exact digit_clean (hd c hcd)
    · rcases hep with rfl | ⟨e, sgn, d, rfl, -, -, hdne, hd⟩
      · rcases hfp with rfl | ⟨d, rfl, hdne, hd⟩
        · obtain ⟨c, hc⟩ := gl_ne_nil ip hipne
          exact ⟨c, by simpa using hc, hipd c (gl_mem ip c hc)⟩
        · obtain ⟨c, hc⟩ := gl_ne_nil d hdne
          refine ⟨c, ?_, hd c (gl_mem d c hc)⟩
          rw [List.append_nil, gl_append_right ip (by simp),
            gl_cons_of_ne hdne]
          exact hc
      · obtain ⟨c, hc⟩ := gl_ne_nil d hdne
        refine ⟨c, ?_, hd c (gl_mem d c hc)⟩
        rw [gl_append_right (ip ++ fp) (by simp), gl_cons_of_ne (by simp [hdne]),
          gl_append_right sgn hdne]
        exact hc

/-- The two number facts lifted through the sign of `parseNum`, for a token
    that is the whole input. -/
theorem parseNum_chars {l : List Char} (h : parseNum l = some (l, [])) :
    (∀ c ∈ l, isPySpace c = false ∧ c ≠ tickC) ∧
    ∃ c, l.getLast? = some c ∧ isDigitC c = true := by
  match l with
  | [] => cases h
  | c0 :: t =>
    rw [parseNum] at h
    by_cases hneg : c0 = '-'
    · rw [if_pos hneg] at h
      cases hnc : numCore t with
      | none => rw [hnc] at h; cases h
      | some p =>
        obtain ⟨w, r⟩ := p
        rw [hnc] at h
        simp only [Option.map_some', Option.some.injEq, Prod.mk.injEq] at h
        obtain ⟨h1, rfl⟩ := h
        have hwt : w = t := by
          have := List.cons.injEq .. ▸ h1
          exact this.2
        subst hwt
        obtain ⟨hmem, c, hc, hcd⟩ := numCore_chars hnc
        have hwne : w ≠ [] := by
          intro hcontra
          rw [hcontra] at hc
          cases hc
        refine ⟨?_, c, ?_, hcd⟩
        · intro x hx
          rcases List.mem_cons.1 hx with rfl | hm
          · rw [hneg]
            exact ⟨by decide, by decide⟩
          · exact hmem x hm
        · rw [gl_cons_of_ne hwne]
          exact hc
    · rw [if_neg hneg] at h
      exact numCore_chars h

/-- Every whitespace character an escaped string character expands to is a
    plain space, and the expansion is never empty. -/
theorem escC_ws (a : Char) : ∀ c ∈ escC a, isPySpace c = true → c = ' ' := by
  intro c hc hws
  rw [escC] at hc
  split_ifs at hc with h1 h2 h3 h4 h5 h6 h7 h8
  · rcases (by simpa using hc : c = '\\' ∨ c = '"') with rfl | rfl <;>
      exact absurd hws (by decide)
  · rcases (by simpa using hc : c = '\\' ∨ c = '\\') with rfl | rfl <;>
      exact absurd hws (by decide)
  · rcases (by simpa using hc : c = '\\' ∨ c = 'n') with rfl | rfl <;>
      exact absurd hws (by decide)
  · rcases (by simpa using hc : c = '\\' ∨ c = 'r') with rfl | rfl <;>
      exact absurd hws (by decide)
  · rcases (by simpa using hc : c = '\\' ∨ c = 't') with rfl | rfl <;>
      exact absurd hws (by decide)
  · rcases (by simpa using hc : c = '\\' ∨ c = 'b') with rfl | rfl <;>
      exact absurd hws (by decide)
  · rcases (by simpa using hc : c = '\\' ∨ c = 'f') with rfl | rfl <;>
      exact absurd hws (by decide)
  · have hlt1 : a.toNat / 16 < 16 := by omega
    have hlt2 : a.toNat % 16 < 16 := by omega
    have hval : ∀ n, n < 16 → isPySpace (hexDigit n) = false := by decide
    simp only [List.mem_cons, List.not_mem_nil, or_false] at hc
    rcases hc with rfl | rfl | rfl | rfl | rfl | rfl
    · exact absurd hws (by decide)
    · exact absurd hws (by decide)
    · exact absurd hws (by decide)
    · exact absurd hws (by decide)
    · rw [hval _ hlt1] at hws; cases hws
    · rw [hval _ hlt2] at hws; cases hws
  · simp only [List.mem_singleton] at hc
    subst hc
    simp only [isPySpace, Bool.or_eq_true, decide_eq_true_eq] at hws
    have h32 : c.toNat = 32 := by omega
    have hofn := Char.ofNat_toNat c
    rw [h32] at hofn
    rw [← hofn]

/-- An escaped string character never expands to nothing. -/
theorem escC_ne_nil (a : Char) : escC a ≠ [] := by
  rw [escC]
  split_ifs <;> simp

/-- Whitespace appearing in a rendered string literal is a plain space. -/
theorem renderStrL_ws (s : String) : ∀ c ∈ renderStrL s, isPySpace c = true → c = ' ' := by
  intro c hc hws
  rw [renderStrL] at hc
  rcases List.mem_cons.1 hc with rfl | hm
  · exact absurd hws (by decide)
  · rcases List.mem_append.1 hm with hf | hq
    · obtain ⟨a, -, hca⟩ := List.mem_flatMap.1 hf
      exact escC_ws a c hca hws
    · simp only [List.mem_singleton] at hq
      subst hq
      exact absurd hws (by decide)


mutual

/-- Every whitespace character in a rendered well-formed value is a plain
    space — in particular a rendering never contains a newline. -/
theorem wsVal : ∀ (j : Json), jwf j = true → ∀ c ∈ renderL j, isPySpace c = true → c = ' '
  | .null, _, c, hc, hws => by
    rw [renderL] at hc
    have hf : isPySpace c = false :=
      (show ∀ x ∈ ['n', 'u', 'l', 'l'], isPySpace x = false by decide) c hc
    rw [hf] at hws
    cases hws
  | .bool true, _, c, hc, hws => by
    rw [renderL] at hc
    have hf : isPySpace c = false :=
      (show ∀ x ∈ ['t', 'r', 'u', 'e'], isPySpace x = false by decide) c hc
    rw [hf] at hws
    cases hws
  | .bool false, _, c, hc, hws => by
    rw [renderL] at hc
    have hf : isPySpace c = false :=
      (show ∀ x ∈ ['f', 'a', 'l', 's', 'e'], isPySpace x = false by decide) c hc
    rw [hf] at hws
    cases hws
  | .num lit, hwf, c, hc, hws => by
    rw [renderL] at hc
    have hf : isPySpace c = false := ((parseNum_chars (jwf_num hwf)).1 c hc).1
    rw [hf] at hws
    cases hws
  | .str s, _, c, hc, hws => renderStrL_ws s c (by rwa [renderL] at hc) hws
  | .arr items, hwf, c, hc, hws => by
    rw [renderL_arr] at hc
    rcases List.mem_cons.1 hc with rfl | hm
    · exact absurd hws (by decide)
    · rcases List.mem_append.1 hm with hin | hq
      · exact wsItems items (by rwa [jwf] at hwf) c hin hws
      · simp only [List.mem_singleton] at hq
        subst hq
        exact absurd hws (by decide)
  | .obj ms, hwf, c, hc, hws => by
    rw [renderL_obj] at hc
    rcases List.mem_cons.1 hc with rfl | hm
    · exact absurd hws (by decide)
    · rcases List.mem_append.1 hm with hin | hq
      · have hwm : jwfMembers ms = true := by
          rw [jwf] at hwf
          exact (by simpa using hwf : jwfMembers ms = true ∧ (ms.map Prod.fst).Nodup).1
        exact wsMembers ms hwm c hin hws
      · simp only [List.mem_singleton] at hq
        subst hq
        exact absurd hws (by decide)

  termination_by j _ _ _ _ => sizeOf j
  decreasing_by
    all_goals simp_wf
    all_goals omega

/-- `wsVal` over the items of an array body. -/
theorem wsItems : ∀ (es : List Json), jwfItems es = true →
    ∀ c ∈ renderItemsL es, isPySpace c = true → c = ' '
  | [], _, c, hc, _ => by rw [renderItemsL] at hc; cases hc
  | j :: rest, hwf, c, hc, hws => by
    rw [renderItemsL] at hc
    have h2 : jwf j = true ∧ jwfItems rest = true := by simpa [jwfItems] using hwf
    rcases List.mem_append.1 hc with h | h
    · exact wsVal j h2.1 c h hws
    · exact wsISep rest h2.2 c h hws

  termination_by es _ _ _ _ => sizeOf es
  decreasing_by
    all_goals simp_wf
    all_goals omega

/-- `wsVal` over a separator-led item tail. -/
theorem wsISep : ∀ (es : List Json), jwfItems es = true →
    ∀ c ∈ renderISep es, isPySpace c = true → c = ' '
  | [], _, c, hc, _ => by rw [renderISep] at hc; cases hc
  | j :: rest, hwf, c, hc, hws => by
    rw [renderISep] at hc
    have h2 : jwf j = true ∧ jwfItems rest = true := by simpa [jwfItems] using hwf
    rcases List.mem_cons.1 hc with rfl | hm
    · exact absurd hws (by decide)
    · rcases List.mem_cons.1 hm with rfl | hm2
      · rfl
      · rcases List.mem_append.1 hm2 with h | h
        · exact wsVal j h2.1 c h hws
        · exact wsISep rest h2.2 c h hws

  termination_by es _ _ _ _ => sizeOf es
  decreasing_by
    all_goals simp_wf
    all_goals omega

/-- `wsVal` over the members of an object body. -/
theorem wsMembers : ∀ (ms : List (String × Json)), jwfMembers ms = true →
    ∀ c ∈ renderMembersL ms, isPySpace c = true → c = ' '
  | [], _, c, hc, _ => by rw [renderMembersL] at hc; cases hc
  | (k, v) :: rest, hwf, c, hc, hws => by
    rw [renderMembersL] at hc
    have h2 : jwf v = true ∧ jwfMembers rest = true := by simpa [jwfMembers] using hwf
    rcases List.mem_append.1 hc with h | hm
    · exact renderStrL_ws k c h hws
    · rcases List.mem_cons.1 hm with rfl | hm2
      · exact absurd hws (by decide)
      · rcases List.mem_cons.1 hm2 with rfl | hm3
        · rfl
        · rcases List.mem_append.1 hm3 with h | h
          · exact wsVal v h2.1 c h hws
          · exact wsMSep rest h2.2 c h hws

  termination_by ms _ _ _ _ => sizeOf ms
  decreasing_by
    all_goals simp_wf
    all_goals omega

/-- `wsVal` over a separator-led member tail. -/
theorem wsMSep : ∀ (ms : List (String × Json)), jwfMembers ms = true →
    ∀ c ∈ renderMSep ms, isPySpace c = true → c = ' '
  | [], _, c, hc, _ => by rw [renderMSep] at hc; cases hc
  | (k, v) :: rest, hwf, c, hc, hws => by
    rw [renderMSep] at hc
    have h2 : jwf v = true ∧ jwfMembers rest = true := by simpa [jwfMembers] using hwf
    rcases List.mem_cons.1 hc with rfl | hm
    · exact absurd hws (by decide)
    · rcases List.mem_cons.1 hm with rfl | hm2
      · rfl
      · rcases List.mem_append.1 hm2 with h | hm3
        · exact renderStrL_ws k c h hws
        · rcases List.mem_cons.1 hm3 with rfl | hm4
          · exact absurd hws (by decide)
          · rcases List.mem_cons.1 hm4 with rfl | hm5
            · rfl
            · rcases List.mem_append.1 hm5 with h | h
              · exact wsVal v h2.1 c h hws
              · exact wsMSep rest h2.2 c h hws

  termination_by ms _ _ _ _ => sizeOf ms
  decreasing_by
    all_goals simp_wf
    all_goals omega

end

/-- A rendering therefore contains no newline characters. -/
theorem renderL_no_nl (j : Json) (hwf : jwf j = true) : ∀ c ∈ renderL j, c ≠ '\n' := by
  intro c hc hcontra
  subst hcontra
  exact absurd (wsVal j hwf '\n' hc (by decide)) (by decide)

/-- A rendering never starts with a backtick. -/
theorem renderL_head_not_tick (j : Json) (hwf : jwf j = true) :
    ∃ c t, renderL j = c :: t ∧ c ≠ tickC := by
  cases j with
  | null => exact ⟨'n', _, rfl, by decide⟩
  | bool b =>
    cases b with
    | true => exact ⟨'t', _, rfl, by decide⟩
    | false => exact ⟨'f', _, rfl, by decide⟩
  | str s => exact ⟨'"', _, rfl, by decide⟩
  | arr items => exact ⟨'[', _, renderL_arr items, by decide⟩
  | obj ms => exact ⟨'{', _, renderL_obj ms, by decide⟩
  | num lit =>
    obtain ⟨c, t, hl, hc⟩ := numLit_shape (jwf_num hwf)
    refine ⟨c, t, by rw [renderL, hl], ?_⟩
    obtain ⟨hmem, -⟩ := parseNum_chars (jwf_num hwf)
    exact (hmem c (by rw [hl]; simp)).2

/-- A rendering never ends with whitespace or a backtick. -/
theorem renderL_last (j : Json) (hwf : jwf j = true) :
    ∃ c, (renderL j).getLast? = some c ∧ isPySpace c = false ∧ c ≠ tickC := by
  cases j with
  | null => exact ⟨'l', by decide, by decide, by decide⟩
  | bool b =>
    cases b with
    | true => exact ⟨'e', by decide, by decide, by decide⟩
    | false => exact ⟨'e', by decide, by decide, by decide⟩
  | str s =>
    refine ⟨'"', ?_, by decide, by decide⟩
    rw [renderL, renderStrL, ← List.cons_append, List.getLast?_concat]
  | arr items =>
    refine ⟨']', ?_, by decide, by decide⟩
    rw [renderL_arr, ← List.cons_append, List.getLast?_concat]
  | obj ms =>
    refine ⟨'}', ?_, by decide, by decide⟩
    rw [renderL_obj, ← List.cons_append, List.getLast?_concat]
  | num lit =>
    obtain ⟨-, c, hc, hcd⟩ := parseNum_chars (jwf_num hwf)
    exact ⟨c, by rw [renderL]; exact hc, digit_clean hcd⟩


/-! ## Behaviour of the fence substitutions on fenced renderings (C9)

The two `re.sub` passes delete the fences around a single-line payload and
touch nothing inside it, because the payload contains no newline, does not
start with a backtick, and ends in a non-space non-backtick character. -/

theorem takeWhile_spaces : ∀ (sp : List Char) (d : Char) (rest : List Char),
    (∀ x ∈ sp, x = ' ') → isPySpace d = false →
    (sp ++ d :: rest).takeWhile isPySpace = sp
  | [], d, rest, _, hd => by
    rw [List.nil_append, List.takeWhile_cons, hd]
    simp
  | x :: sp', d, rest, hsp, hd => by
    have hx : x = ' ' := hsp x (by simp)
    subst hx
    rw [List.cons_append, List.takeWhile_cons]
    simp only [show isPySpace ' ' = true from by decide, if_true]
    rw [takeWhile_spaces sp' d rest (fun y hy => hsp y (by simp [hy])) hd]

theorem fenceOk_spaces : ∀ (sp : List Char) (d : Char) (rest : List Char),
    (∀ x ∈ sp, x = ' ') → isPySpace d = false →
    ∀ k, k ≤ sp.length → fenceOkAt (sp ++ d :: rest) k = false
  | [], d, rest, _, hd, 0, _ => by
    have hdn : d ≠ '\n' := by
      intro hc
      rw [hc] at hd
      cases hd
    simp [fenceOkAt, hdn]
  | x :: sp', d, rest, hsp, _hd, 0, _ => by
    have hx : x = ' ' := hsp x (by simp)
    subst hx
    simp [fenceOkAt]
  | x :: sp', d, rest, hsp, hd, k + 1, hk => by
    have hx : x = ' ' := hsp x (by simp)
    subst hx
    have hrec := fenceOk_spaces sp' d rest (fun y hy => hsp y (by simp [hy])) hd k
      (by simpa using hk)
    simpa [fenceOkAt, List.drop_succ_cons] using hrec

theorem bestKAux_none : ∀ (t : List Char) (n : Nat),
    (∀ k, k ≤ n → fenceOkAt t k = false) → bestKAux t n = none
  | t, 0, h => by
    rw [bestKAux, h 0 (Nat.le_refl 0)]
    simp
  | t, n + 1, h => by
    rw [bestKAux, h (n + 1) (Nat.le_refl _)]
    simp only [Bool.false_eq_true, if_false]
    exact bestKAux_none t n (fun k hk => h k (Nat.le_trans hk (Nat.le_succ n)))

/-- The closing-fence regex cannot match when the whitespace run after the
    backticks is made of spaces and stopped by a non-line-end character. -/
theorem bestK_none_mid (sp : List Char) (d : Char) (rest : List Char)
    (hsp : ∀ x ∈ sp, x = ' ') (hd : isPySpace d = false) :
    bestK (sp ++ d :: rest) = none := by
  rw [bestK, takeWhile_spaces sp d rest hsp hd]
  exact bestKAux_none _ _ (fenceOk_spaces sp d rest hsp hd)

/-- A text whose whitespace is all spaces is all spaces, or splits into a
    space prefix and a non-whitespace stopper. -/
theorem spaces_split : ∀ (l : List Char), (∀ c ∈ l, isPySpace c = true → c = ' ') →
    (∀ x ∈ l, x = ' ') ∨
      ∃ sp d r2, l = sp ++ d :: r2 ∧ (∀ x ∈ sp, x = ' ') ∧ isPySpace d = false
  | [], _ => Or.inl (by simp)
  | c :: t, hws => by
    by_cases hc : isPySpace c = true
    · have hcs : c = ' ' := hws c (by simp) hc
      rcases spaces_split t (fun x hx => hws x (by simp [hx]))
        with hall | ⟨sp, d, r2, heq, hsp, hd⟩
      · refine Or.inl ?_
        intro x hx
        rcases List.mem_cons.1 hx with rfl | hm
        · exact hcs
        · exact hall x hm
      · refine Or.inr ⟨c :: sp, d, r2, by rw [heq]; rfl, ?_, hd⟩
        intro x hx
        rcases List.mem_cons.1 hx with rfl | hm
        · exact hcs
        · exact hsp x hm
    · exact Or.inr ⟨[], c, t, rfl, by simp, by simpa using hc⟩

/-- The second substitution consumes a lone closing fence after a newline. -/
theorem sub2Aux_tail : sub2Aux ('\n' :: ticks3) = ['\n'] := by
  simp [sub2Aux, ticks3, tickC, bestK, bestKAux, fenceOkAt, isPySpace]

/-- The second substitution walks over a clean payload untouched and then
    deletes the final newline-adjacent closing fence. -/
theorem sub2Aux_skip : ∀ (R : List Char),
    (∀ c ∈ R, isPySpace c = true → c = ' ') →
    (∀ c, R.getLast? = some c → isPySpace c = false ∧ c ≠ tickC) →
    sub2Aux (R ++ '\n' :: ticks3) = R ++ ['\n']
  | [], _, _ => by simpa using sub2Aux_tail
  | c :: R', hws, hlast => by
    have hws' : ∀ x ∈ R', isPySpace x = true → x = ' ' :=
      fun x hx => hws x (List.mem_cons_of_mem c hx)
    have hlast' : ∀ x, R'.getLast? = some x → isPySpace x = false ∧ x ≠ tickC := by
      intro x hx
      have hne : R' ≠ [] := by
        intro hc0
        rw [hc0] at hx
        cases hx
      exact hlast x (by rw [gl_cons_of_ne hne]; exact hx)
    have htail := sub2Aux_skip R' hws' hlast'
    have hg : ¬((c :: (R' ++ '\n' :: ticks3)).take 3 = ticks3 ∧
        (bestK ((c :: (R' ++ '\n' :: ticks3)).drop 3)).isSome = true) := by
      rintro ⟨h3, hbk⟩
      rcases R' with _ | ⟨c2, R''⟩
      · simp [ticks3, tickC, List.take_succ_cons] at h3
      rcases R'' with _ | ⟨c3, R3⟩
      · simp [ticks3, tickC, List.take_succ_cons] at h3
      have h3' : c = tickC ∧ c2 = tickC ∧ c3 = tickC := by
        simpa [ticks3, List.take_succ_cons] using h3
      obtain ⟨rfl, rfl, rfl⟩ := h3'
      have hdrop : ((tickC :: ((tickC :: tickC :: R3) ++ '\n' :: ticks3)).drop 3 : List Char)
          = R3 ++ '\n' :: ticks3 := rfl
      rw [hdrop] at hbk
      rcases spaces_split R3 (fun x hx => hws x (by simp [hx]))
        with hall | ⟨sp, d, r2, heq, hsp, hd⟩
      · rcases R3 with _ | ⟨x, R4⟩
        · exact (hlast tickC (by decide)).2 rfl
        · obtain ⟨cl, hcl⟩ := gl_ne_nil (x :: R4) (by simp)
          have hR : ((tickC :: (tickC :: tickC :: x :: R4) : List Char)).getLast?
              = some cl := by
            rw [List.getLast?_cons_cons, List.getLast?_cons_cons, List.getLast?_cons_cons]
            exact hcl
          have h5 := hlast cl hR
          have hcl' : cl = ' ' := hall cl (gl_mem _ cl hcl)
          rw [hcl'] at h5
          exact absurd h5.1 (by decide)
      · rw [heq] at hbk
        rw [show (sp ++ d :: r2) ++ '\n' :: ticks3 = sp ++ d :: (r2 ++ '\n' :: ticks3)
          by simp] at hbk
        rw [bestK_none_mid sp d _ hsp hd] at hbk
        simp at hbk
    rw [List.cons_append, sub2Aux.eq_def]
    simp only []
    rw [dif_neg hg, htail]
    rfl

/-- The first substitution leaves a newline-free backtick-headless payload
    alone, whatever line-start state it begins in. -/
theorem sub1Aux_app : ∀ (l : List Char) (b : Bool) (tail : List Char),
    (∀ c ∈ l, c ≠ '\n') → (b = true → ∀ c t2, l = c :: t2 → c ≠ tickC) →
    sub1Aux b (l ++ tail) = l ++ sub1Aux (if l.isEmpty then b else false) tail
  | [], b, tail, _, _ => by simp
  | c :: l', b, tail, hnl, hhd => by
    rw [List.cons_append, sub1Aux.eq_def]
    simp only []
    have hg : ¬(b = true ∧ (c :: (l' ++ tail)).take 7 = fenceJ) := by
      rintro ⟨hb, h7⟩
      have hc : c = tickC := by
        have h8 := congrArg List.head? h7
        simpa [fenceJ, List.take_succ_cons] using h8
      exact hhd hb c l' rfl hc
    rw [dif_neg hg]
    have hcn : c ≠ '\n' := hnl c (by simp)
    have hdc : decide (c = '\n') = false := by simpa using hcn
    rw [hdc]
    rw [sub1Aux_app l' false tail (fun x hx => hnl x (by simp [hx])) (by simp)]
    simp

/-- The first substitution consumes a line-start ```` ```json ```` opener and
    its whitespace run. -/
theorem sub1Aux_fence (rest : List Char) :
    sub1Aux true (fenceJ ++ '\n' :: rest) =
      sub1Aux (decide ((('\n' :: rest).takeWhile isPySpace).getLast? = some '\n'))
        (('\n' :: rest).dropWhile isPySpace) := by
  have hcons : fenceJ ++ '\n' :: rest
      = tickC :: tickC :: tickC :: 'j' :: 's' :: 'o' :: 'n' :: '\n' :: rest := rfl
  rw [hcons, sub1Aux.eq_def]
  simp only []
  split
  · rfl
  · next h => exact absurd ⟨by trivial, rfl⟩ h

/-- Stepping the first substitution when not at a line start. -/
theorem sub1Aux_cons_false (c : Char) (cs : List Char) :
    sub1Aux false (c :: cs) = c :: sub1Aux (decide (c = '\n')) cs := by
  rw [sub1Aux.eq_def]
  simp only []
  rw [dif_neg]
  rintro ⟨hb, -⟩
  simp at hb

/-- A bare ``` ``` ``` opener does not match the first substitution: the
    pass walks over it. -/
theorem sub1Aux_bare (rest : List Char) :
    sub1Aux true (ticks3 ++ '\n' :: rest) = ticks3 ++ '\n' :: sub1Aux true rest := by
  have h1 : ticks3 ++ '\n' :: rest = tickC :: tickC :: tickC :: '\n' :: rest := rfl
  rw [h1, sub1Aux.eq_def]
  simp only []
  split
  · next h =>
      exfalso
      have h7 := h.2
      simp [fenceJ, List.take_succ_cons] at h7
  · rw [show decide (tickC = '\n') = false from by decide]
    rw [sub1Aux_cons_false, show decide (tickC = '\n') = false from by decide]
    rw [sub1Aux_cons_false, show decide (tickC = '\n') = false from by decide]
    rw [sub1Aux_cons_false, show decide ('\n' = '\n') = true from by decide]
    rfl

/-- The first substitution ignores the closing fence (not at line start when
    reached, and ``` ``` ``` alone never matches the seven-character opener). -/
theorem sub1Aux_close : sub1Aux false ('\n' :: ticks3) = '\n' :: ticks3 := by
  simp [sub1Aux, ticks3, tickC, fenceJ, isPySpace]

/-- `str.strip()` of a clean payload with one trailing newline. -/
theorem pyStripL_wrap (R : List Char) (hne : R ≠ [])
    (hhead : ∀ c t2, R = c :: t2 → isPySpace c = false)
    (hlast : ∀ c, R.getLast? = some c → isPySpace c = false) :
    pyStripL (R ++ ['\n']) = R := by
  obtain ⟨c, t, rfl⟩ : ∃ c t, R = c :: t := by
    cases R with
    | nil => exact absurd rfl hne
    | cons c t => exact ⟨c, t, rfl⟩
  rw [pyStripL]
  have h1 : ((c :: t) ++ ['\n']).dropWhile isPySpace = (c :: t) ++ ['\n'] := by
    rw [List.cons_append, List.dropWhile_cons, hhead c t rfl]
    simp
  rw [h1, dropTrailing]
  have h2 : ((c :: t) ++ ['\n']).reverse = '\n' :: (c :: t).reverse := by simp
  rw [h2, List.dropWhile_cons]
  simp only [show isPySpace '\n' = true from by decide, if_true]
  cases hrev : (c :: t).reverse with
  | nil => simp at hrev
  | cons cl rv =>
    have hcl : (c :: t).getLast? = some cl := by
      rw [← List.head?_reverse, hrev]
      rfl
    have hclw := hlast cl hcl
    rw [List.dropWhile_cons, hclw]
    simp only [Bool.false_eq_true, if_false]
    rw [← hrev, List.reverse_reverse]

/-- `str.strip()` eats a leading newline. -/
theorem pyStripL_cons_nl (x : List Char) : pyStripL ('\n' :: x) = pyStripL x := by
  rw [pyStripL, pyStripL, List.dropWhile_cons]
  simp [show isPySpace '\n' = true from by decide]

/-- The opening bare fence does match the second substitution, with an empty
    whitespace run, exposing the newline and payload after it. -/
theorem sub2Aux_openfence (R : List Char) (rc : Char) (Rt : List Char)
    (hR : R = rc :: Rt) (hrc : isPySpace rc = false)
    (hws : ∀ c ∈ R, isPySpace c = true → c = ' ')
    (hlast : ∀ c, R.getLast? = some c → isPySpace c = false ∧ c ≠ tickC) :
    sub2Aux (ticks3 ++ '\n' :: (R ++ '\n' :: ticks3)) = '\n' :: (R ++ ['\n']) := by
  have hrcn : rc ≠ '\n' := by
    intro hc
    rw [hc] at hrc
    cases hrc
  have h0 : ticks3 ++ '\n' :: (R ++ '\n' :: ticks3)
      = tickC :: tickC :: tickC :: '\n' :: (R ++ '\n' :: ticks3) := rfl
  have hbk : bestK ('\n' :: (R ++ '\n' :: ticks3)) = some 0 := by
    rw [bestK]
    have htw : (('\n' :: (R ++ '\n' :: ticks3)).takeWhile isPySpace) = ['\n'] := by
      rw [List.takeWhile_cons]
      simp only [show isPySpace '\n' = true from by decide, if_true]
      rw [hR, List.cons_append, List.takeWhile_cons, hrc]
      simp
    rw [htw]
    show bestKAux ('\n' :: (R ++ '\n' :: ticks3)) 1 = some 0
    have hf1 : fenceOkAt ('\n' :: (R ++ '\n' :: ticks3)) 1 = false := by
      rw [fenceOkAt, hR]
      simp [hrcn]
    have hf0 : fenceOkAt ('\n' :: (R ++ '\n' :: ticks3)) 0 = true := by
      simp [fenceOkAt]
    rw [bestKAux, hf1]
    simp only [Bool.false_eq_true, if_false]
    rw [bestKAux, hf0]
    simp
  rw [h0, sub2Aux.eq_def]
  simp only []
  split
  · show sub2Aux (List.drop ((bestK ('\n' :: (R ++ '\n' :: ticks3))).getD 0)
      ('\n' :: (R ++ '\n' :: ticks3))) = '\n' :: (R ++ ['\n'])
    rw [hbk]
    simp only [Option.getD_some, List.drop_zero]
    rw [sub2Aux.eq_def]
    simp only []
    split
    · next h2 =>
        exfalso
        have h8 := congrArg List.head? h2.1
        simp [ticks3, tickC, List.take_succ_cons] at h8
    · rw [sub2Aux_skip R hws hlast]
  · next h =>
      exfalso
      refine h ⟨rfl, ?_⟩
      show (bestK ('\n' :: (R ++ '\n' :: ticks3))).isSome = true
      rw [hbk]
      rfl

/-- Fence stripping recovers the payload of a ```` ```json ````-fenced
    rendering exactly. -/
theorem stripFences_json (j : Json) (hwf : jwf j = true) :
    stripFences (String.mk (fenceJ ++ '\n' :: (renderL j ++ '\n' :: ticks3)))
      = render j := by
  obtain ⟨rc, Rt, hR, hrc⟩ := renderL_head_ne_space j hwf
  obtain ⟨rc2, Rt2, hR2, hrt2⟩ := renderL_head_not_tick j hwf
  obtain ⟨cl, hcl, hclws, hclt⟩ := renderL_last j hwf
  have hnl := renderL_no_nl j hwf
  have hws := wsVal j hwf
  have hhd : (true : Bool) = true → ∀ c t2, renderL j = c :: t2 → c ≠ tickC := by
    intro _ c t2 heq
    rw [hR2] at heq
    have hce : rc2 = c := (List.cons.injEq .. ▸ heq).1
    rw [← hce]
    exact hrt2
  have happ := sub1Aux_app (renderL j) true ('\n' :: ticks3) hnl hhd
  have hne : (renderL j).isEmpty = false := by rw [hR]; rfl
  rw [hne] at happ
  simp only [Bool.false_eq_true, if_false] at happ
  rw [sub1Aux_close] at happ
  have ht : (('\n' :: (renderL j ++ '\n' :: ticks3)).takeWhile isPySpace) = ['\n'] := by
    rw [List.takeWhile_cons]
    simp only [show isPySpace '\n' = true from by decide, if_true]
    rw [hR, List.cons_append, List.takeWhile_cons, hrc]
    simp
  have hd : (('\n' :: (renderL j ++ '\n' :: ticks3)).dropWhile isPySpace)
      = renderL j ++ '\n' :: ticks3 := by
    rw [List.dropWhile_cons]
    simp only [show isPySpace '\n' = true from by decide, if_true]
    rw [hR, List.cons_append, List.dropWhile_cons, hrc]
    simp
  have s1 : sub1Aux true (fenceJ ++ '\n' :: (renderL j ++ '\n' :: ticks3))
      = renderL j ++ '\n' :: ticks3 := by
    rw [sub1Aux_fence, ht, hd]
    rw [show decide ((['\n'] : List Char).getLast? = some '\n') = true from by decide]
    exact happ
  have hlast2 : ∀ x, (renderL j).getLast? = some x → isPySpace x = false ∧ x ≠ tickC := by
    intro x hx
    rw [hcl] at hx
    cases hx
    exact ⟨hclws, hclt⟩
  have s2 := sub2Aux_skip (renderL j) hws hlast2
  have s3 : pyStripL (renderL j ++ ['\n']) = renderL j := by
    refine pyStripL_wrap (renderL j) (by rw [hR]; simp) ?_ ?_
    · intro c t2 heq
      rw [hR] at heq
      have hce : rc = c := (List.cons.injEq .. ▸ heq).1
      rw [← hce]
      exact hrc
    · intro x hx
      rw [hcl] at hx
      cases hx
      exact hclws
  rw [stripFences]
  rw [show (String.mk (fenceJ ++ '\n' :: (renderL j ++ '\n' :: ticks3))).toList
    = fenceJ ++ '\n' :: (renderL j ++ '\n' :: ticks3) from rfl]
  rw [s1, s2, s3]
  rfl

/-- Fence stripping also recovers the payload of a bare ``` ``` ```-fenced
    rendering. -/
theorem stripFences_bare (j : Json) (hwf : jwf j = true) :
    stripFences (String.mk (ticks3 ++ '\n' :: (renderL j ++ '\n' :: ticks3)))
      = render j := by
  obtain ⟨rc, Rt, hR, hrc⟩ := renderL_head_ne_space j hwf
  obtain ⟨rc2, Rt2, hR2, hrt2⟩ := renderL_head_not_tick j hwf
  obtain ⟨cl, hcl, hclws, hclt⟩ := renderL_last j hwf
  have hnl := renderL_no_nl j hwf
  have hws := wsVal j hwf
  have hhd : (true : Bool) = true → ∀ c t2, renderL j = c :: t2 → c ≠ tickC := by
    intro _ c t2 heq
    rw [hR2] at heq
    have hce : rc2 = c := (List.cons.injEq .. ▸ heq).1
    rw [← hce]
    exact hrt2
  have happ := sub1Aux_app (renderL j) true ('\n' :: ticks3) hnl hhd
  have hne : (renderL j).isEmpty = false := by rw [hR]; rfl
  rw [hne] at happ
  simp only [Bool.false_eq_true, if_false] at happ
  rw [sub1Aux_close] at happ
  have s1 : sub1Aux true (ticks3 ++ '\n' :: (renderL j ++ '\n' :: ticks3))
      = ticks3 ++ '\n' :: (renderL j ++ '\n' :: ticks3) := by
    rw [sub1Aux_bare, happ]
  have hlast2 : ∀ x, (renderL j).getLast? = some x → isPySpace x = false ∧ x ≠ tickC := by
    intro x hx
    rw [hcl] at hx
    cases hx
    exact ⟨hclws, hclt⟩
  have s2 := sub2Aux_openfence (renderL j) rc Rt hR hrc hws hlast2
  have s3 : pyStripL (renderL j ++ ['\n']) = renderL j := by
    refine pyStripL_wrap (renderL j) (by rw [hR]; simp) ?_ ?_
    · intro c t2 heq
      rw [hR] at heq
      have hce : rc = c := (List.cons.injEq .. ▸ heq).1
      rw [← hce]
      exact hrc
    · intro x hx
      rw [hcl] at hx
      cases hx
      exact hclws
  rw [stripFences]
  rw [show (String.mk (ticks3 ++ '\n' :: (renderL j ++ '\n' :: ticks3))).toList
    = ticks3 ++ '\n' :: (renderL j ++ '\n' :: ticks3) from rfl]
  rw [s1, s2, pyStripL_cons_nl, s3]
  rfl


/-! ## The compiled pattern and its meaning (C1, C10)

`re.escape` makes every character of the term a literal token, so the
compiled pattern is `\b`, the term's characters, `\b`.  For terms whose
first and last characters are word characters, the search agrees with the
specification's whole-word test; the `C++`-style terms where the two
diverge are the subject of C1's counterexample. -/

/-- Compiling the escaped term body: every character becomes a literal. -/
theorem parsePattern_pyEscape : ∀ (key : List Char),
    parsePattern (pyEscape key ++ ['\\', 'b']) = some (key.map RTok.lit ++ [RTok.bnd])
  | [] => by decide
  | c :: t => by
    rw [show pyEscape (c :: t)
      = (if isWordCharB c then [c] else ['\\', c]) ++ pyEscape t from rfl]
    by_cases hw : isWordCharB c = true
    · rw [if_pos hw]
      rw [show ([c] ++ pyEscape t) ++ ['\\', 'b'] = c :: (pyEscape t ++ ['\\', 'b'])
        by simp]
      have hcb : c ≠ '\\' := by
        intro hc
        rw [hc] at hw
        exact absurd hw (by decide)
      rw [parsePattern.eq_def]
      simp only []
      rw [if_neg hcb, if_pos hw, parsePattern_pyEscape t]
      simp
    · rw [if_neg hw]
      rw [show (['\\', c] ++ pyEscape t) ++ ['\\', 'b']
        = '\\' :: c :: (pyEscape t ++ ['\\', 'b']) by simp]
      have h1 : parsePattern ('\\' :: c :: (pyEscape t ++ ['\\', 'b']))
          = (if c = 'b' then (parsePattern (pyEscape t ++ ['\\', 'b'])).map (RTok.bnd :: ·)
             else if isWordCharB c then none
             else (parsePattern (pyEscape t ++ ['\\', 'b'])).map (RTok.lit c :: ·)) := rfl
      have hcb : c ≠ 'b' := by
        intro hc
        rw [hc] at hw
        exact hw (by decide)
      rw [h1, if_neg hcb, if_neg (by simpa using hw : ¬isWordCharB c = true),
        parsePattern_pyEscape t]
      simp

/-- Compiling the whole raw pattern: one boundary anchor on each side of the
    term\'s characters, taken literally. -/
theorem parsePattern_rawPattern (key : List Char) :
    parsePattern (rawPattern key)
      = some (RTok.bnd :: (key.map RTok.lit ++ [RTok.bnd])) := by
  have h1 : parsePattern (rawPattern key)
      = (parsePattern (pyEscape key ++ ['\\', 'b'])).map (RTok.bnd :: ·) := rfl
  rw [h1, parsePattern_pyEscape key]
  simp

/-- Case-insensitive equality preserves word-character status. -/
theorem ciEq_word {a b : Char} (h : ciEq a b = true) : isWordCharB a = isWordCharB b := by
  have h2 : lowerCode a.toNat = lowerCode b.toNat := by simpa [ciEq] using h
  rw [lowerCode, lowerCode] at h2
  simp only [isWordCharB]
  rw [Bool.eq_iff_iff]
  simp only [Bool.or_eq_true, Bool.and_eq_true, decide_eq_true_eq]
  split_ifs at h2 <;> omega

/-- Matching the literal run and the closing anchor is exactly the spec's
    case-insensitive-prefix-then-non-word-edge test, for a term ending in a
    word character. -/
theorem matchLits : ∀ (kl m : List Char) (prev : Option Char), kl ≠ [] →
    (∀ x, kl.getLast? = some x → isWordCharB x = true) →
    matchToks prev (kl.map RTok.lit ++ [RTok.bnd]) m =
      (ciListEq kl (m.take kl.length) && !(isWordOpt ((m.drop kl.length).head?)))
  | [], _, _, hne, _ => absurd rfl hne
  | [k], m, prev, _, hl => by
    cases m with
    | nil =>
      rw [show ([k].map RTok.lit ++ [RTok.bnd]) = [RTok.lit k, RTok.bnd] from rfl]
      rw [matchToks]
      simp [ciListEq]
    | cons r rest =>
      rw [show ([k].map RTok.lit ++ [RTok.bnd]) = [RTok.lit k, RTok.bnd] from rfl]
      rw [matchToks, matchToks, matchToks]
      rw [show List.take ([k].length) (r :: rest) = [r] from rfl,
        show List.drop ([k].length) (r :: rest) = rest from rfl]
      rw [show ciListEq [k] [r] = (ciEq k r && true) from by rw [ciListEq, ciListEq]]
      by_cases hkr : ciEq k r = true
      · have hkw : isWordCharB k = true := hl k rfl
        have hrw : isWordCharB r = true := by rw [← ciEq_word hkr]; exact hkw
        rw [hkr, isBoundaryB, show isWordOpt (some r) = isWordCharB r from rfl, hrw]
        cases hnext : isWordOpt rest.head? <;> simp
      · rw [show ciEq k r = false from by simpa using hkr]
        simp
  | k :: k2 :: kt, m, prev, _, hl => by
    cases m with
    | nil =>
      rw [show ((k :: k2 :: kt).map RTok.lit ++ [RTok.bnd])
        = RTok.lit k :: ((k2 :: kt).map RTok.lit ++ [RTok.bnd]) from rfl]
      rw [matchToks]
      simp [ciListEq]
    | cons r rest =>
      rw [show ((k :: k2 :: kt).map RTok.lit ++ [RTok.bnd])
        = RTok.lit k :: ((k2 :: kt).map RTok.lit ++ [RTok.bnd]) from rfl]
      rw [matchToks]
      rw [matchLits (k2 :: kt) rest (some r) (by simp)
        (fun x hx => hl x (by rwa [gl_cons_of_ne (by simp)]))]
      rw [show (r :: rest).take (k :: k2 :: kt).length
        = r :: rest.take (k2 :: kt).length from by
          rw [List.length_cons, List.take_succ_cons]]
      rw [show (r :: rest).drop (k :: k2 :: kt).length
        = rest.drop (k2 :: kt).length from by
          rw [List.length_cons, List.drop_succ_cons]]
      rw [ciListEq]
      simp [Bool.and_assoc]

/-- Full-pattern test at one position equals the spec's occurs-here test,
    for a term whose first and last characters are word characters. -/
theorem matchPattern (kl m : List Char) (prev : Option Char)
    (hh : isWordOpt kl.head? = true) (hl : isWordOpt kl.getLast? = true) :
    matchToks prev (RTok.bnd :: (kl.map RTok.lit ++ [RTok.bnd])) m =
      (!(isWordOpt prev) && ciListEq kl (m.take kl.length) &&
        !(isWordOpt ((m.drop kl.length).head?))) := by
  obtain ⟨k, kt, rfl⟩ : ∃ k kt, kl = k :: kt := by
    cases kl with
    | nil => cases hh
    | cons k kt => exact ⟨k, kt, rfl⟩
  have hkw : isWordCharB k = true := hh
  have hlast : ∀ x, (k :: kt).getLast? = some x → isWordCharB x = true := by
    intro x hx
    rw [hx] at hl
    exact hl
  rw [matchToks]
  rw [matchLits (k :: kt) m prev (by simp) hlast]
  by_cases hci : ciListEq (k :: kt) (m.take (k :: kt).length) = true
  · obtain ⟨r, mr, rfl⟩ : ∃ r mr, m = r :: mr := by
      cases m with
      | nil =>
        exfalso
        rw [show ([] : List Char).take (k :: kt).length = [] from by simp, ciListEq] at hci
        cases hci
      | cons r mr => exact ⟨r, mr, rfl⟩
    have hkt0 : (r :: mr).take (k :: kt).length = r :: mr.take kt.length := by
      rw [List.length_cons, List.take_succ_cons]
    have hkr : ciEq k r = true := by
      rw [hkt0, ciListEq] at hci
      exact (Bool.and_eq_true .. ▸ hci).1
    have hrw : isWordCharB r = true := by rw [← ciEq_word hkr]; exact hkw
    rw [hci, isBoundaryB, show (r :: mr).head? = some r from rfl,
      show isWordOpt (some r) = isWordCharB r from rfl, hrw]
    cases hprev : isWordOpt prev <;> simp
  · rw [show ciListEq (k :: kt) (m.take (k :: kt).length) = false from by simpa using hci]
    simp

/-- Scanning with a previous-character context equals the existence of a
    split whose left part carries that context. -/
theorem cons_getLast_or (c : Char) (a : List Char) (x : Option Char) :
    ((c :: a).getLast?).or x = (a.getLast?).or (some c) := by
  cases a with
  | nil => rfl
  | cons y t =>
    obtain ⟨z, hz⟩ := gl_ne_nil (y :: t) (by simp)
    rw [List.getLast?_cons_cons, hz]
    rfl

theorem searchFrom_iff : ∀ (toks : List RTok) (b : List Char) (alast : Option Char),
    searchFrom toks alast b = true ↔
      ∃ a2 b2, b = a2 ++ b2 ∧ matchToks ((a2.getLast?).or alast) toks b2 = true
  | toks, [], alast => by
    rw [searchFrom]
    constructor
    · intro h
      exact ⟨[], [], rfl, by simpa using h⟩
    · rintro ⟨a2, b2, heq, hm⟩
      obtain ⟨rfl, rfl⟩ := List.append_eq_nil.1 heq.symm
      simpa using hm
  | toks, c :: r, alast => by
    rw [searchFrom, Bool.or_eq_true]
    constructor
    · rintro (h | h)
      · exact ⟨[], c :: r, rfl, by simpa using h⟩
      · obtain ⟨a2, b2, heq, hm⟩ := (searchFrom_iff toks r (some c)).1 h
        refine ⟨c :: a2, b2, by rw [heq, List.cons_append], ?_⟩
        rwa [cons_getLast_or]
    · rintro ⟨a2, b2, heq, hm⟩
      rcases a2 with _ | ⟨a0, a2'⟩
      · left
        rw [List.nil_append] at heq
        rw [← heq] at hm
        simpa using hm
      · right
        rw [List.cons_append] at heq
        obtain ⟨ha0, hr⟩ : a0 = c ∧ r = a2' ++ b2 := by
          have h1 := List.cons.injEq .. ▸ heq
          exact ⟨h1.1.symm, h1.2⟩
        subst ha0
        refine (searchFrom_iff toks r (some a0)).2 ⟨a2', b2, hr, ?_⟩
        rwa [cons_getLast_or] at hm

/-- `(a ++ b).drop (|a| + k) = b.drop k`. -/
theorem drop_len_add (a b : List Char) (k : Nat) :
    (a ++ b).drop (a.length + k) = b.drop k := List.drop_append k

/-- The compiled search agrees with the spec's any-position whole-word test
    for word-edged terms. -/
theorem reSearch_spec (kl ml : List Char)
    (hh : isWordOpt kl.head? = true) (hl : isWordOpt kl.getLast? = true) :
    reSearch (RTok.bnd :: (kl.map RTok.lit ++ [RTok.bnd])) ml =
      (List.range (ml.length + 1)).any (specOccursAt kl ml) := by
  rw [Bool.eq_iff_iff, reSearch, searchFrom_iff, List.any_eq_true]
  constructor
  · rintro ⟨a2, b2, rfl, hm⟩
    rw [matchPattern kl b2 _ hh hl] at hm
    simp only [Bool.and_eq_true, Bool.not_eq_true'] at hm
    obtain ⟨⟨hp, hci⟩, hnd⟩ := hm
    refine ⟨a2.length, ?_, ?_⟩
    · rw [List.mem_range]
      have : a2.length ≤ (a2 ++ b2).length := by simp
      omega
    · rw [specOccursAt, List.take_left, List.drop_left, drop_len_add]
      simp only [Bool.and_eq_true, Bool.not_eq_true']
      rw [Option.or_none] at hp
      exact ⟨⟨hci, hp⟩, hnd⟩
  · rintro ⟨i, hir, hocc⟩
    rw [List.mem_range] at hir
    have hile : i ≤ ml.length := by omega
    rw [specOccursAt] at hocc
    simp only [Bool.and_eq_true, Bool.not_eq_true'] at hocc
    obtain ⟨⟨hci, hp⟩, hnd⟩ := hocc
    refine ⟨ml.take i, ml.drop i, (List.take_append_drop i ml).symm, ?_⟩
    rw [matchPattern kl (ml.drop i) _ hh hl]
    simp only [Bool.and_eq_true, Bool.not_eq_true']
    have hdd : (ml.drop i).drop kl.length = ml.drop (i + kl.length) := by
      rw [List.drop_drop, Nat.add_comm]
    refine ⟨⟨?_, hci⟩, by rwa [hdd]⟩
    rwa [Option.or_none]

/-- The matcher's per-term test, compiled and run, equals the specification
    test for word-edged terms. -/
theorem termMatches_spec (key msg : String)
    (hh : isWordOpt key.toList.head? = true) (hl : isWordOpt key.toList.getLast? = true) :
    termMatches key msg = some (specWholeWord key msg) := by
  rw [termMatches, parsePattern_rawPattern, Option.map_some',
    reSearch_spec key.toList msg.toList hh hl, specWholeWord]

/-- The matcher returns exactly the store entries whose term passes the
    spec's whole-word test, in store order, for word-edged terms. -/
theorem extract_spec : ∀ (m : KMap) (msg : String),
    (∀ kv ∈ m, isWordOpt kv.1.toList.head? = true ∧ isWordOpt kv.1.toList.getLast? = true) →
    extract_key_terms_from_text msg m
      = some (m.filter (fun kv => specWholeWord kv.1 msg))
  | [], msg, _ => by
    rw [extract_key_terms_from_text]
    rfl
  | (k, e) :: rest, msg, hk => by
    rw [extract_key_terms_from_text]
    have h1 := hk (k, e) (by simp)
    rw [termMatches_spec k msg h1.1 h1.2]
    rw [extract_spec rest msg (fun kv hkv => hk kv (by simp [hkv]))]
    rw [List.filter_cons]

/-- Totality of the matcher: the regex path never fails, whatever the term. -/
theorem extract_total : ∀ (m : KMap) (msg : String),
    (extract_key_terms_from_text msg m).isSome = true
  | [], msg => by rw [extract_key_terms_from_text]; rfl
  | (k, e) :: rest, msg => by
    rw [extract_key_terms_from_text]
    rw [termMatches, parsePattern_rawPattern k.toList, Option.map_some']
    have h2 := extract_total rest msg
    obtain ⟨r, hr⟩ := Option.isSome_iff_exists.1 h2
    rw [hr]
    simp only []
    cases reSearch (RTok.bnd :: (k.toList.map RTok.lit ++ [RTok.bnd])) msg.toList <;> rfl


/-! ## Dictionary and strip lemmas for the store endpoints (C3, C6, C7) -/

theorem mget_msetHere_self : ∀ (m : List (String × α)) (k : String) (v : α),
    (mget m k).isSome = true → mget (msetHere m k v) k = some v
  | [], _, _, h => by cases h
  | (k0, v0) :: t, k, v, h => by
    by_cases hk : k0 = k
    · rw [msetHere, if_pos hk, mget, if_pos hk]
    · rw [msetHere, if_neg hk, mget, if_neg hk]
      rw [mget, if_neg hk] at h
      exact mget_msetHere_self t k v h

theorem mget_msetHere_other : ∀ (m : List (String × α)) (k k2 : String) (v : α),
    k2 ≠ k → mget (msetHere m k v) k2 = mget m k2
  | [], _, _, _, _ => rfl
  | (k0, v0) :: t, k, k2, v, hne => by
    by_cases hk : k0 = k
    · rw [msetHere, if_pos hk, mget, mget]
      rw [if_neg (by rw [hk]; exact fun hc => hne hc.symm),
        if_neg (by rw [hk]; exact fun hc => hne hc.symm)]
    · rw [msetHere, if_neg hk, mget, mget]
      by_cases hk2 : k0 = k2
      · rw [if_pos hk2, if_pos hk2]
      · rw [if_neg hk2, if_neg hk2]
        exact mget_msetHere_other t k k2 v hne

theorem mget_append_left : ∀ (m m2 : List (String × α)) (k : String),
    (mget m k).isSome = true → mget (m ++ m2) k = mget m k
  | [], _, _, h => by cases h
  | (k0, v0) :: t, m2, k, h => by
    rw [List.cons_append, mget, mget]
    by_cases hk : k0 = k
    · rw [if_pos hk, if_pos hk]
    · rw [if_neg hk, if_neg hk]
      rw [mget, if_neg hk] at h
      exact mget_append_left t m2 k h

theorem mget_append_right : ∀ (m m2 : List (String × α)) (k : String),
    mget m k = none → mget (m ++ m2) k = mget m2 k
  | [], _, _, _ => rfl
  | (k0, v0) :: t, m2, k, h => by
    by_cases hk : k0 = k
    · rw [mget, if_pos hk] at h
      cases h
    · rw [mget, if_neg hk] at h
      rw [List.cons_append, mget, if_neg hk]
      exact mget_append_right t m2 k h

/-- `d[k] = v` then reading `k` gives `v`. -/
theorem mget_mset_self (m : List (String × α)) (k : String) (v : α) :
    mget (mset m k v) k = some v := by
  rw [mset]
  by_cases hp : (mget m k).isSome = true
  · rw [if_pos hp]
    exact mget_msetHere_self m k v hp
  · have hn : mget m k = none := by
      cases hget : mget m k
      · rfl
      · rw [hget] at hp
        exact absurd rfl hp
    rw [if_neg hp, mget_append_right m [(k, v)] k hn, mget, if_pos rfl]

/-- `d[k] = v` leaves every other key's value alone. -/
theorem mget_mset_other (m : List (String × α)) (k k2 : String) (v : α) (hne : k2 ≠ k) :
    mget (mset m k v) k2 = mget m k2 := by
  rw [mset]
  by_cases hp : (mget m k).isSome = true
  · rw [if_pos hp]
    exact mget_msetHere_other m k k2 v hne
  · rw [if_neg hp]
    by_cases hp2 : (mget m k2).isSome = true
    · rw [mget_append_left m [(k, v)] k2 hp2]
    · have hn2 : mget m k2 = none := by
        cases hget : mget m k2
        · rfl
        · rw [hget] at hp2
          exact absurd rfl hp2
      rw [mget_append_right m [(k, v)] k2 hn2, hn2, mget,
        if_neg (fun hc => hne hc.symm)]
      rfl

theorem mget_none_iff : ∀ (m : List (String × α)) (k : String),
    mget m k = none ↔ ¬k ∈ mkeys m
  | [], k => by simp [mget, mkeys]
  | (k0, v0) :: t, k => by
    rw [mget, mkeys, List.map_cons]
    by_cases hk : k0 = k
    · rw [if_pos hk]
      constructor
      · intro h
        cases h
      · intro h
        exact absurd (List.mem_cons.2 (Or.inl hk.symm)) h
    · rw [if_neg hk]
      rw [mget_none_iff t k]
      simp only [List.mem_cons]
      constructor
      · intro h hor
        rcases hor with he | hm
        · exact hk he.symm
        · exact h hm
      · intro h hm
        exact h (Or.inr hm)

theorem mkeys_msetHere : ∀ (m : List (String × α)) (k : String) (v : α),
    mkeys (msetHere m k v) = mkeys m
  | [], _, _ => rfl
  | (k0, v0) :: t, k, v => by
    by_cases hk : k0 = k
    · rw [msetHere, if_pos hk]
      simp [mkeys]
    · rw [msetHere, if_neg hk]
      simp only [mkeys, List.map_cons]
      rw [show (msetHere t k v).map Prod.fst = t.map Prod.fst from mkeys_msetHere t k v]

theorem mkeys_mdel_sub : ∀ (m : List (String × α)) (k : String),
    ∀ x ∈ mkeys (mdel m k), x ∈ mkeys m
  | [], _, x, h => h
  | (k0, v0) :: t, k, x, h => by
    rw [mdel] at h
    by_cases hk : k0 = k
    · rw [if_pos hk] at h
      exact List.mem_cons_of_mem _ h
    · rw [if_neg hk] at h
      rw [mkeys, List.map_cons] at h ⊢
      rcases List.mem_cons.1 h with rfl | hm
      · exact List.mem_cons_self _ _
      · exact List.mem_cons_of_mem _ (mkeys_mdel_sub t k x hm)

theorem mkeys_mdel_nodup : ∀ (m : List (String × α)) (k : String),
    (mkeys m).Nodup → (mkeys (mdel m k)).Nodup
  | [], _, h => h
  | (k0, v0) :: t, k, h => by
    rw [mkeys, List.map_cons, List.nodup_cons] at h
    rw [mdel]
    by_cases hk : k0 = k
    · rw [if_pos hk]
      exact h.2
    · rw [if_neg hk, mkeys, List.map_cons, List.nodup_cons]
      exact ⟨fun hc => h.1 (mkeys_mdel_sub t k k0 hc), mkeys_mdel_nodup t k h.2⟩

theorem mkeys_mset_fresh (m : List (String × α)) (k : String) (v : α)
    (h : mget m k = none) : mkeys (mset m k v) = mkeys m ++ [k] := by
  rw [mset, if_neg (by rw [h]; simp)]
  simp [mkeys]

/-- `strip` is idempotent: heads and tails of a stripped list are non-space. -/
theorem dw_head (p : Char → Bool) : ∀ (l : List Char) (x : Char),
    (l.dropWhile p).head? = some x → p x = false
  | [], x, h => by cases h
  | c :: t, x, h => by
    rw [List.dropWhile_cons] at h
    by_cases hc : p c = true
    · rw [if_pos hc] at h
      exact dw_head p t x h
    · rw [if_neg hc] at h
      cases h
      simpa using hc

theorem dropWhile_of_head (p : Char → Bool) (l : List Char)
    (h : ∀ x, l.head? = some x → p x = false) : l.dropWhile p = l := by
  cases l with
  | nil => rfl
  | cons c t =>
    rw [List.dropWhile_cons, h c rfl]
    simp

theorem dropTrailing_of_last (p : Char → Bool) (l : List Char)
    (h : ∀ x, l.getLast? = some x → p x = false) : dropTrailing p l = l := by
  rw [dropTrailing, dropWhile_of_head p l.reverse
    (fun x hx => h x (by rwa [← List.head?_reverse])), List.reverse_reverse]

theorem dropTrailing_last (p : Char → Bool) (l : List Char) (x : Char)
    (h : (dropTrailing p l).getLast? = some x) : p x = false := by
  rw [dropTrailing] at h
  rw [List.getLast?_reverse] at h
  exact dw_head p l.reverse x h

theorem dropTrailing_head (p : Char → Bool) : ∀ (l : List Char) (x : Char),
    (dropTrailing p l).head? = some x → l.head? = some x := by
  intro l x h
  have hsplit : l = dropTrailing p l ++ (l.reverse.takeWhile p).reverse := by
    rw [dropTrailing, ← List.reverse_append, List.takeWhile_append_dropWhile,
      List.reverse_reverse]
  rw [hsplit]
  cases hdt : dropTrailing p l with
  | nil => rw [hdt] at h; cases h
  | cons c t =>
    rw [hdt] at h
    rw [List.cons_append]
    exact h

theorem pyStripL_head_clean (l : List Char) (x : Char)
    (h : (pyStripL l).head? = some x) : isPySpace x = false := by
  rw [pyStripL] at h
  exact dw_head isPySpace l x (dropTrailing_head isPySpace (l.dropWhile isPySpace) x h)

theorem pyStripL_last_clean (l : List Char) (x : Char)
    (h : (pyStripL l).getLast? = some x) : isPySpace x = false := by
  rw [pyStripL] at h
  exact dropTrailing_last isPySpace (l.dropWhile isPySpace) x h

theorem pyStripL_idem (l : List Char) : pyStripL (pyStripL l) = pyStripL l := by
  have h1 : (pyStripL l).dropWhile isPySpace = pyStripL l :=
    dropWhile_of_head isPySpace (pyStripL l) (pyStripL_head_clean l)
  rw [pyStripL, h1]
  exact dropTrailing_of_last isPySpace (pyStripL l) (pyStripL_last_clean l)

/-- Python `str.strip()` is idempotent. -/
theorem pyStrip_idem (s : String) : pyStrip (pyStrip s) = pyStrip s := by
  rw [pyStrip, pyStrip, show (String.mk (pyStripL s.toList)).toList
    = pyStripL s.toList from rfl, pyStripL_idem]

/-! ## The store invariant under the mutating operations (C3) -/

theorem storeInv_mset (m : KMap) (k : String) (v : KTEntry) (hm : storeInv m)
    (hk : pyStrip k = k) (hne : k ≠ "") : storeInv (mset m k v) := by
  by_cases hp : (mget m k).isSome = true
  · rw [mset, if_pos hp]
    have hkeys : mkeys (msetHere m k v) = mkeys m := mkeys_msetHere m k v
    refine ⟨by rw [hkeys]; exact hm.1, ?_⟩
    intro k2 hk2
    rw [hkeys] at hk2
    exact hm.2 k2 hk2
  · have hn : mget m k = none := by
      cases hget : mget m k
      · rfl
      · rw [hget] at hp
        exact absurd rfl hp
    rw [mset, if_neg hp]
    have hkeys : mkeys (m ++ [(k, v)]) = mkeys m ++ [k] := by simp [mkeys]
    constructor
    · rw [hkeys, List.nodup_append]
      refine ⟨hm.1, List.nodup_singleton k, ?_⟩
      intro x hx hc
      rw [List.mem_singleton] at hc
      subst hc
      exact ((mget_none_iff m x).1 hn) hx
    · intro k2 hk2
      rw [hkeys] at hk2
      rcases List.mem_append.1 hk2 with hin | hin
      · exact hm.2 k2 hin
      · rw [List.mem_singleton] at hin
        subst hin
        exact ⟨hk, hne⟩

theorem storeInv_add (m : KMap) (kt : KeyTerm) (hm : storeInv m) :
    storeInv (add_key_term m kt).map := by
  rw [add_key_term]
  by_cases h1 : pyStrip kt.term = ""
  · rw [if_pos h1]
    exact hm
  · rw [if_neg h1]
    by_cases h2 : (mget m (pyStrip kt.term)).isSome = true
    · rw [if_pos h2]
      exact hm
    · rw [if_neg h2]
      exact storeInv_mset m (pyStrip kt.term) _ hm (pyStrip_idem kt.term) h1

theorem storeInv_update (m : KMap) (term : String) (kt : KeyTerm) (hm : storeInv m) :
    storeInv (update_key_term m term kt).map := by
  rw [update_key_term]
  cases hget : mget m (pyStrip term) with
  | none => exact hm
  | some e =>
    simp only []
    refine ⟨by rw [show mkeys (msetHere m (pyStrip term) _) = mkeys m from
      mkeys_msetHere m _ _]; exact hm.1, ?_⟩
    intro k2 hk2
    rw [show mkeys (msetHere m (pyStrip term) _) = mkeys m from
      mkeys_msetHere m _ _] at hk2
    exact hm.2 k2 hk2

theorem storeInv_delete (m : KMap) (term : String) (hm : storeInv m) :
    storeInv (delete_key_term m term).map := by
  rw [delete_key_term]
  by_cases h : (mget m (pyStrip term)).isSome = true
  · rw [if_pos h]
    exact ⟨mkeys_mdel_nodup m _ hm.1,
      fun k2 hk2 => hm.2 k2 (mkeys_mdel_sub m _ k2 hk2)⟩
  · rw [if_neg h]
    exact hm

theorem mergeItems_cons_obj (m : KMap) (added : Bool) (term : String)
    (dm : List (String × Json)) (rest : List (String × Json)) :
    mergeItems m added ((term, .obj dm) :: rest)
      = (match asStr ((mget dm "definition").getD (.str "")) with
        | none => (m, added, some PyErr.attrError)
        | some d0 =>
          (match asStr ((mget dm "relevance").getD (.str "Low")) with
          | none => (m, added, some PyErr.attrError)
          | some r0 =>
            if pyStrip term ≠ "" ∧ (mget m (pyStrip term)).isNone then
              mergeItems (mset m (pyStrip term)
                ⟨.str (pyStrip d0), .str (pyStrip r0)⟩) true rest
            else mergeItems m added rest)) := rfl

theorem storeInv_mergeItems : ∀ (items : List (String × Json)) (m : KMap) (added : Bool),
    storeInv m → storeInv (mergeItems m added items).1
  | [], _, _, hm => hm
  | (term, Json.null) :: rest, _, _, hm => hm
  | (term, Json.bool b) :: rest, _, _, hm => hm
  | (term, Json.num lit) :: rest, _, _, hm => hm
  | (term, Json.str s) :: rest, _, _, hm => hm
  | (term, Json.arr items2) :: rest, _, _, hm => hm
  | (term, Json.obj dm) :: rest, m, added, hm => by
    rw [mergeItems_cons_obj]
    cases hd0 : asStr ((mget dm "definition").getD (.str "")) with
    | none => exact hm
    | some d0 =>
      cases hr0 : asStr ((mget dm "relevance").getD (.str "Low")) with
      | none => exact hm
      | some r0 =>
        simp only []
        by_cases hfresh : pyStrip term ≠ "" ∧ (mget m (pyStrip term)).isNone = true
        · rw [if_pos hfresh]
          exact storeInv_mergeItems rest _ true
            (storeInv_mset m (pyStrip term) _ hm (pyStrip_idem term)
              (by simpa using hfresh.1))
        · rw [if_neg hfresh]
          exact storeInv_mergeItems rest m added hm

theorem chatExtractionPhase_none {m : KMap} {text : String}
    (hp : parseJson (stripFences text) = none) :
    chatExtractionPhase m text = ⟨m, false, none⟩ := by
  rw [chatExtractionPhase, hp]

theorem chatExtractionPhase_obj {m : KMap} {text : String} {top : List (String × Json)}
    (hp : parseJson (stripFences text) = some (.obj top)) :
    chatExtractionPhase m text =
      (match (mget top "key_terms").getD (.obj []) with
       | .obj items =>
         (match mergeItems m false items with
          | (m2, _, some e) => ⟨m2, false, some e⟩
          | (m2, added, none) => ⟨m2, added, none⟩)
       | _ => ⟨m, false, some .attrError⟩) := by
  rw [chatExtractionPhase, hp]

theorem chatExtractionPhase_inv (m : KMap) (text : String) (hm : storeInv m) :
    storeInv (chatExtractionPhase m text).map := by
  cases hp : parseJson (stripFences text) with
  | none =>
    rw [chatExtractionPhase_none hp]
    exact hm
  | some j =>
    cases j with
    | obj top =>
      rw [chatExtractionPhase_obj hp]
      cases hkt : (mget top "key_terms").getD (.obj []) with
      | obj items =>
        simp only []
        have hmi := storeInv_mergeItems items m false hm
        rcases hmo : mergeItems m false items with ⟨m2, added, err⟩
        rw [hmo] at hmi
        cases err with
        | none => exact hmi
        | some e => exact hmi
      | null => exact hm
      | bool b => exact hm
      | num lit => exact hm
      | str s => exact hm
      | arr items2 => exact hm
    | null =>
      rw [show chatExtractionPhase m text = ⟨m, false, some .attrError⟩ from by
        rw [chatExtractionPhase, hp]]
      exact hm
    | bool b =>
      rw [show chatExtractionPhase m text = ⟨m, false, some .attrError⟩ from by
        rw [chatExtractionPhase, hp]]
      exact hm
    | num lit =>
      rw [show chatExtractionPhase m text = ⟨m, false, some .attrError⟩ from by
        rw [chatExtractionPhase, hp]]
      exact hm
    | str s =>
      rw [show chatExtractionPhase m text = ⟨m, false, some .attrError⟩ from by
        rw [chatExtractionPhase, hp]]
      exact hm
    | arr items2 =>
      rw [show chatExtractionPhase m text = ⟨m, false, some .attrError⟩ from by
        rw [chatExtractionPhase, hp]]
      exact hm

theorem storeInv_chat (m : KMap) (reply text : String) (hm : storeInv m) :
    storeInv (chat_outcome m reply text).map := by
  have hphase := chatExtractionPhase_inv m text hm
  rw [chat_outcome]
  rcases hph : chatExtractionPhase m text with ⟨m2, saved, err⟩
  rw [hph] at hphase
  cases err with
  | none => exact hphase
  | some e => exact hphase

/-! ## Load processing up to the first bad line (C4) -/

theorem loadLines_ok : ∀ (pre : List String) (acc : KMap),
    (∀ l ∈ pre, loadLine l ≠ .badJson ∧ loadLine l ≠ .weird) →
    ∀ X, loadLines acc (pre ++ X) = loadLines (loadLines acc pre).map X ∧
      loadLines acc pre = ⟨(loadLines acc pre).map, false, false⟩
  | [], acc, _, X => by
    rw [List.nil_append]
    exact ⟨rfl, rfl⟩
  | line :: rest, acc, hpre, X => by
    have h1 := hpre line (by simp)
    rw [List.cons_append, loadLines]
    cases hline : loadLine line with
    | badJson => exact absurd hline h1.1
    | weird => exact absurd hline h1.2
    | skip =>
      have hrec := loadLines_ok rest acc (fun l hl => hpre l (by simp [hl])) X
      rw [show loadLines acc (line :: rest) = loadLines acc rest from by
        rw [loadLines, hline]]
      exact hrec
    | entry t e =>
      have hrec := loadLines_ok rest (mset acc t e) (fun l hl => hpre l (by simp [hl])) X
      rw [show loadLines acc (line :: rest) = loadLines (mset acc t e) rest from by
        rw [loadLines, hline]]
      exact hrec


/-! ## Endpoint case equations used by the claim theorems -/

/-- The successful `add` branch, with the definition-and-relevance defaults
    spelled out. -/
theorem add_key_term_success (m : KMap) (kt : KeyTerm)
    (h1 : pyStrip kt.term ≠ "") (h2 : mget m (pyStrip kt.term) = none) :
    add_key_term m kt = ⟨mset m (pyStrip kt.term)
      ⟨.str (match kt.definition with
             | some s => if s = "" then "" else pyStrip s
             | none => ""),
       .str (match kt.relevance with
             | some s => if s = "" then "Low" else pyStrip s
             | none => "Low")⟩,
      true, none⟩ := by
  rw [add_key_term, if_neg h1, if_neg (by rw [h2]; simp)]

/-- The successful `update` branch: only the supplied fields are replaced. -/
theorem update_key_term_found (m : KMap) (term : String) (kt : KeyTerm) (e : KTEntry)
    (he : mget m (pyStrip term) = some e) :
    update_key_term m term kt = ⟨msetHere m (pyStrip term)
      ⟨(match kt.definition with | some d => .str (pyStrip d) | none => e.defn),
       (match kt.relevance with | some r => .str (pyStrip r) | none => e.rel)⟩,
      true, none⟩ := by
  rw [update_key_term, he]
  obtain ⟨t0, d0, r0⟩ := kt
  cases d0 with
  | none =>
    cases r0 with
    | none => rfl
    | some r => rfl
  | some d =>
    cases r0 with
    | none => rfl
    | some r => rfl

/-! ## The ten claims -/

/-- C1 (corrected), counterexample: the term `C++` occurs in the message
    delimited by spaces — the spec's whole-word reading matches — yet the
    code's `\b`-anchored search returns no match, because no word boundary
    exists between `+` and the following space. -/
theorem C1_whole_word_counterexample :
    extract_key_terms_from_text "I use C++ daily" [("C++", ⟨.str "", .str "Low"⟩)]
      = some [] ∧
    specWholeWord "C++" "I use C++ daily" = true := by decide

/-- C1 (amended): for stores whose terms begin and end with word characters,
    the matcher returns exactly the entries whose term occurs in the message
    as a whole word, case-insensitively, in store order. -/
theorem C1_whole_word_matching (msg : String) (m : KMap)
    (hk : ∀ kv ∈ m, isWordOpt kv.1.toList.head? = true ∧
      isWordOpt kv.1.toList.getLast? = true) :
    extract_key_terms_from_text msg m
      = some (m.filter (fun kv => specWholeWord kv.1 msg)) :=
  extract_spec m msg hk

/-- C1 witness: `Cat` (stored) matches `I have a cat` case-insensitively. -/
theorem C1_whole_word_matching_witness :
    extract_key_terms_from_text "I have a cat" [("Cat", ⟨.str "feline", .str "High"⟩)]
      = some [("Cat", ⟨.str "feline", .str "High"⟩)] := by
  have h := C1_whole_word_matching "I have a cat"
    [("Cat", ⟨.str "feline", .str "High"⟩)] (by decide)
  rw [h]
  decide

/-- C2 (corrected), counterexample: `[]` is valid JSON but mis-shaped (not an
    object), so `.get` raises outside the `except json.JSONDecodeError`
    handler: the request fails with a 500 and the reply is lost. -/
theorem C2_mis_shaped_counterexample :
    chat_outcome [] "the reply" "[]" = ⟨none, 500, []⟩ := by
  have hsf : stripFences "[]" = "[]" := by
    simp [stripFences, sub1Aux, sub2Aux, pyStripL, dropTrailing, fenceJ,
      ticks3, fenceOkAt, bestK, bestKAux, tickC, isPySpace]
  have hparse : parseJson (stripFences "[]") = some (.arr []) := by
    rw [hsf]
    decide
  rw [chat_outcome, show chatExtractionPhase [] "[]" = ⟨[], false, some .attrError⟩
    from by rw [chatExtractionPhase, hparse]]

/-- C2 (amended): when the extraction text does not parse as JSON at all, the
    decode failure is swallowed and the reply is returned with status 200,
    store untouched. -/
theorem C2_extraction_failure_keeps_reply (m : KMap) (reply text : String)
    (h : parseJson (stripFences text) = none) :
    chat_outcome m reply text = ⟨some reply, 200, m⟩ := by
  rw [chat_outcome, chatExtractionPhase_none h]

/-- C2 witness: plain prose as extraction output still yields the reply. -/
theorem C2_extraction_failure_witness :
    chat_outcome [] "the reply" "no json here" = ⟨some "the reply", 200, []⟩ := by
  have hsf : stripFences "no json here" = "no json here" := by
    simp [stripFences, sub1Aux, sub2Aux, pyStripL, dropTrailing, fenceJ,
      ticks3, fenceOkAt, bestK, bestKAux, tickC, isPySpace]
  exact C2_extraction_failure_keeps_reply [] "the reply" "no json here"
    (by rw [hsf]; decide)

/-- C3 (corrected), counterexample: loading a record whose term is a single
    space stores the key `" "` untrimmed — a key that is empty after
    trimming, against the claimed invariant. -/
theorem C3_load_untrimmed_counterexample :
    (load_key_terms (some ["\x7b\"term\": \" \"\x7d"])).map
      = [(" ", ⟨.str "", .str "Low"⟩)] ∧
    pyStrip " " = "" := by decide

/-- C3 (amended): the mutating endpoints and the extraction merge do preserve
    the invariant (unique, trimmed, nonempty keys); only the load path can
    break it. -/
theorem C3_store_invariant (m : KMap) (hm : storeInv m) :
    (∀ kt, storeInv (add_key_term m kt).map) ∧
    (∀ term kt, storeInv (update_key_term m term kt).map) ∧
    (∀ term, storeInv (delete_key_term m term).map) ∧
    (∀ reply text, storeInv (chat_outcome m reply text).map) :=
  ⟨fun kt => storeInv_add m kt hm,
   fun term kt => storeInv_update m term kt hm,
   fun term => storeInv_delete m term hm,
   fun reply text => storeInv_chat m reply text hm⟩

/-- C3 witness: adding to the seeded store keeps the invariant. -/
theorem C3_store_invariant_witness :
    storeInv (add_key_term [("Pandora", seedEntry)] ⟨"NewTerm", none, none⟩).map :=
  (C3_store_invariant [("Pandora", seedEntry)] ⟨by decide, by decide⟩).1
    ⟨"NewTerm", none, none⟩

/-- C4 (corrected), counterexample: a good line before a malformed one is
    kept: the load reports a decode error yet returns a nonempty partial
    mapping, not an empty one. -/
theorem C4_partial_load_counterexample :
    load_key_terms (some ["\x7b\"term\": \"a\"\x7d", "nope"])
      = ⟨[("a", ⟨.str "", .str "Low"⟩)], ["\x7b\"term\": \"a\"\x7d", "nope"],
         true, false⟩ := by decide

/-- C4 (amended): the loop stops at the first malformed line with a decode
    error, keeping exactly the entries of the well-formed prefix. -/
theorem C4_partial_load (pre : List String) (bad : String) (rest : List String)
    (hpre : ∀ l ∈ pre, loadLine l ≠ .badJson ∧ loadLine l ≠ .weird)
    (hbad : loadLine bad = .badJson) :
    load_key_terms (some (pre ++ bad :: rest)) =
      ⟨(loadLines [] pre).map, pre ++ bad :: rest, true, false⟩ := by
  have hLL : loadLines ([] : KMap) (pre ++ bad :: rest)
      = ⟨(loadLines [] pre).map, true, false⟩ := by
    rw [(loadLines_ok pre [] hpre (bad :: rest)).1]
    rw [loadLines, hbad]
  have hdef : load_key_terms (some (pre ++ bad :: rest))
      = ⟨(loadLines [] (pre ++ bad :: rest)).map, pre ++ bad :: rest,
         (loadLines [] (pre ++ bad :: rest)).decodeErr,
         (loadLines [] (pre ++ bad :: rest)).crashed⟩ := rfl
  rw [hdef, hLL]

/-- C4 witness: one good line, then garbage, then an unread line. -/
theorem C4_partial_load_witness :
    load_key_terms (some (["\x7b\"term\": \"b\"\x7d"] ++ "oops" :: ["unread"]))
      = ⟨(loadLines [] ["\x7b\"term\": \"b\"\x7d"]).map,
         ["\x7b\"term\": \"b\"\x7d"] ++ "oops" :: ["unread"], true, false⟩ :=
  C4_partial_load ["\x7b\"term\": \"b\"\x7d"] "oops" ["unread"]
    (by decide) (by decide)

/-- C5 (corrected), counterexample: a store file that exists but is empty is
    NOT seeded — the loaded store is empty and the file is left empty. -/
theorem C5_empty_file_counterexample :
    load_key_terms (some []) = ⟨[], [], false, false⟩ := by decide

/-- C5 (amended): seeding happens exactly when the file is missing — one
    entry `Pandora`/`High`, written to the file as the exact `json.dumps`
    line — while an existing file (even empty) just yields its parsed
    entries. -/
theorem C5_seed_on_missing_file :
    load_key_terms none = ⟨[("Pandora", seedEntry)],
      ["\x7b\"term\": \"Pandora\", \"definition\": \"When you get this key say hii with two i's no matter what\", \"relevance\": \"High\"\x7d"],
      false, false⟩ ∧
    ∀ lines, load_key_terms (some lines)
      = ⟨(loadLines [] lines).map, lines, (loadLines [] lines).decodeErr,
         (loadLines [] lines).crashed⟩ := by
  refine ⟨?_, fun lines => rfl⟩
  decide

/-- C6 (confirmed): `add` rejects an empty or duplicate (exact-key) term with
    a 400 and no mutation; otherwise it inserts with relevance defaulted to
    `Low`, persists, and leaves every other key unchanged. -/
theorem C6_add_semantics (m : KMap) (kt : KeyTerm) :
    (pyStrip kt.term = "" →
      add_key_term m kt = ⟨m, false, some ⟨400, "Term cannot be empty."⟩⟩) ∧
    ((mget m (pyStrip kt.term)).isSome = true → pyStrip kt.term ≠ "" →
      add_key_term m kt = ⟨m, false, some ⟨400, "Key term already exists."⟩⟩) ∧
    (mget m (pyStrip kt.term) = none → pyStrip kt.term ≠ "" →
      (add_key_term m kt).saved = true ∧ (add_key_term m kt).err = none ∧
      (kt.relevance = none →
        mget (add_key_term m kt).map (pyStrip kt.term)
          = some ⟨.str (match kt.definition with
                        | some s => if s = "" then "" else pyStrip s
                        | none => ""), .str "Low"⟩) ∧
      ∀ k2, k2 ≠ pyStrip kt.term →
        mget (add_key_term m kt).map k2 = mget m k2) := by
  refine ⟨?_, ?_, ?_⟩
  · intro h1
    rw [add_key_term, if_pos h1]
  · intro h2 h1
    rw [add_key_term, if_neg h1, if_pos h2]
  · intro h2 h1
    rw [add_key_term_success m kt h1 h2]
    refine ⟨rfl, rfl, ?_, ?_⟩
    · intro hrel
      rw [hrel]
      exact mget_mset_self m (pyStrip kt.term) _
    · intro k2 hk2
      exact mget_mset_other m (pyStrip kt.term) k2 _ hk2

/-- C7 (confirmed): `update` and `delete` on an absent (trimmed) term fail
    with a 404 and no mutation; `update` on a present term overwrites only
    the supplied fields and leaves every other entry unchanged. -/
theorem C7_update_delete_semantics (m : KMap) (term : String) (kt : KeyTerm) :
    (mget m (pyStrip term) = none →
      update_key_term m term kt = ⟨m, false, some ⟨404, "Key term not found."⟩⟩ ∧
      delete_key_term m term = ⟨m, false, some ⟨404, "Key term not found."⟩⟩) ∧
    (∀ e, mget m (pyStrip term) = some e →
      (update_key_term m term kt).saved = true ∧
      (update_key_term m term kt).err = none ∧
      mget (update_key_term m term kt).map (pyStrip term)
        = some ⟨(match kt.definition with | some d => .str (pyStrip d) | none => e.defn),
                (match kt.relevance with | some r => .str (pyStrip r) | none => e.rel)⟩ ∧
      ∀ k2, k2 ≠ pyStrip term →
        mget (update_key_term m term kt).map k2 = mget m k2) := by
  constructor
  · intro hnone
    constructor
    · rw [update_key_term, hnone]
    · rw [delete_key_term, if_neg (by rw [hnone]; simp)]
  · intro e he
    rw [update_key_term_found m term kt e he]
    refine ⟨rfl, rfl, ?_, ?_⟩
    · exact mget_msetHere_self m (pyStrip term) _ (by rw [he]; rfl)
    · intro k2 hk2
      exact mget_msetHere_other m (pyStrip term) k2 _ hk2

/-- C8 (confirmed): saving a store whose keys are unique and nonempty (as
    every store built by the endpoints is) and loading the file back restores
    the term-to-entry mapping exactly, flags clear. -/
theorem C8_persistence_roundtrip (m : KMap) (hgood : goodStore m) :
    load_key_terms (some (save_key_terms m)) = ⟨m, save_key_terms m, false, false⟩ :=
  load_save_roundtrip m hgood

/-- C8 witness: the seeded store round-trips. -/
theorem C8_persistence_roundtrip_witness :
    load_key_terms (some (save_key_terms [("Pandora", seedEntry)]))
      = ⟨[("Pandora", seedEntry)], save_key_terms [("Pandora", seedEntry)],
         false, false⟩ :=
  C8_persistence_roundtrip [("Pandora", seedEntry)] ⟨by decide, by decide⟩

/-- C9 (confirmed): a well-formed JSON rendering wrapped in a code fence —
    with a ```` ```json ```` or bare ``` ``` ``` opener — is stripped back to
    exactly the rendering, and parses to the original value. -/
theorem C9_fenced_extraction_parses (j : Json) (hwf : jwf j = true) :
    stripFences (String.mk (fenceJ ++ '\n' :: (renderL j ++ '\n' :: ticks3)))
      = render j ∧
    stripFences (String.mk (ticks3 ++ '\n' :: (renderL j ++ '\n' :: ticks3)))
      = render j ∧
    parseJson (stripFences (String.mk (fenceJ ++ '\n' ::
      (renderL j ++ '\n' :: ticks3)))) = some j ∧
    parseJson (stripFences (String.mk (ticks3 ++ '\n' ::
      (renderL j ++ '\n' :: ticks3)))) = some j := by
  refine ⟨stripFences_json j hwf, stripFences_bare j hwf, ?_, ?_⟩
  · rw [stripFences_json j hwf]
    exact parseJson_render j hwf
  · rw [stripFences_bare j hwf]
    exact parseJson_render j hwf

/-- C9 witness: a fenced `key_terms` object parses after stripping. -/
theorem C9_fenced_extraction_witness :
    parseJson (stripFences (String.mk (fenceJ ++ '\n' ::
      (renderL (Json.obj [("key_terms", Json.obj [])]) ++ '\n' :: ticks3))))
      = some (Json.obj [("key_terms", Json.obj [])]) :=
  (C9_fenced_extraction_parses (Json.obj [("key_terms", Json.obj [])])
    (by decide)).2.2.1

/-- C10 (confirmed): the pattern built from any term compiles to a boundary
    anchor, the term's characters as literals, and a boundary anchor — never
    to regex structure — and the matching pass is total: it returns a result
    for every term list and message. -/
theorem C10_literal_total_matching (key msg : String) :
    parsePattern (rawPattern key.toList)
      = some (RTok.bnd :: (key.toList.map RTok.lit ++ [RTok.bnd])) ∧
    termMatches key msg
      = some (reSearch (RTok.bnd :: (key.toList.map RTok.lit ++ [RTok.bnd]))
          msg.toList) ∧
    ∀ m : KMap, (extract_key_terms_from_text msg m).isSome = true := by
  refine ⟨parsePattern_rawPattern key.toList, ?_, fun m => extract_total m msg⟩
  rw [termMatches, parsePattern_rawPattern, Option.map_some']


end KeyWrite
